import Mathlib

/-!
Verification of the Overpass caching proxy (TypeScript sources) against its
natural-language specification.

Shallow embedding conventions:
* JS numbers are modelled as exact rationals (`Rat`); the claims under study
  concern structure and ordering, not floating-point rounding.
* JS strings are modelled as `String` / `List Char`.
* The regex-based scanners of `bbox.ts` are embedded as explicit left-to-right
  scanners mirroring the leftmost-match / global-match semantics of the JS
  regexes used in the source, including the backtracking behaviour of
  `\s*([^\]]+)\]`.
* Functions whose JS recursion consumes a data-dependent amount of input are
  written fuel-indexed (structural on the fuel) with a wrapper passing
  `length + 1`; one character is consumed per step so the fuel never runs out.
-/

/-! ## BoundingBox and query inspection (src/bbox.ts, `src/unnamed/part_010`) -/

/-- BoundingBox record from `bbox.ts`: four numbers (south, west, north, east). -/
structure BoundingBox where
  south : Rat
  west : Rat
  north : Rat
  east : Rat
deriving Repr, DecidableEq

/-- Numeric value of a list of decimal digit characters. -/
def digitsToNat (l : List Char) : Nat :=
  l.foldl (fun n c => 10 * n + (c.toNat - '0'.toNat)) 0

/-- Value of a decimal literal from the regex `-?\d+(?:\.\d+)?`: optional sign,
integer digits, optional fractional digits. Exact rational (see header note);
built with `mkRat` so that concrete values reduce in the kernel. -/
def numValue (neg : Bool) (intD fracD : List Char) : Rat :=
  let k := fracD.length
  let m : Int := (digitsToNat intD) * 10 ^ k + digitsToNat fracD
  mkRat (if neg then -m else m) (10 ^ k)

/-- Attempt to match `\d+(?:\.\d+)?` at the head of `l` (the optional sign was
already consumed by the caller); returns the value and the unconsumed suffix.
A lone dot after the integer digits is not consumed, as in the regex where the
`(?:\.\d+)?` group fails and matches nothing. -/
def matchNumFrom (neg : Bool) (l : List Char) : Option (Rat × List Char) :=
  let intD := l.takeWhile Char.isDigit
  let rest := l.dropWhile Char.isDigit
  if intD.isEmpty then none
  else
    match rest with
    | '.' :: rest2 =>
      let fracD := rest2.takeWhile Char.isDigit
      let rest3 := rest2.dropWhile Char.isDigit
      if fracD.isEmpty then some (numValue neg intD [], rest)
      else some (numValue neg intD fracD, rest3)
    | _ => some (numValue neg intD [], rest)

/-- Attempt to match `-?\d+(?:\.\d+)?` at the head of `l`. -/
def matchNumAt : List Char → Option (Rat × List Char)
  | '-' :: rest => matchNumFrom true rest
  | l => matchNumFrom false l

/-- Fuel-indexed scanner for `tuple.match` with the global number regex
`-?\d+(?:\.\d+)?` (flag g): left-to-right,
non-overlapping matches; on failure the scan advances one character. -/
def scanNumbersF : Nat → List Char → List Rat
  | 0, _ => []
  | _, [] => []
  | fuel + 1, c :: rest =>
    match matchNumAt (c :: rest) with
    | some (v, rest') => v :: scanNumbersF fuel rest'
    | none => scanNumbersF fuel rest

/-- All matches of the global number regex in a string, in order. -/
def scanNumbers (l : List Char) : List Rat := scanNumbersF (l.length + 1) l

/-- Embedding of `normaliseTuple` from `bbox.ts`: exactly four numeric matches
yield a box in order (south, west, north, east), otherwise `null`. The
`Number.isNaN` guard of the source can never fire on strings produced by the
digit regex and is a no-op in the exact model. -/
def normaliseTuple (t : List Char) : Option BoundingBox :=
  match scanNumbers t with
  | [s, w, n, e] => some ⟨s, w, n, e⟩
  | _ => none

/-- Scanner for the first stage of `stripComments`, the regex
`/\/[/*].*?\*\//gs`: a `/` followed by `/` or `*` is removed together with
everything up to and including the earliest following `*/`; if no `*/`
follows, nothing is removed at this position. Returns the suffix after the
closing `*/` when it exists. -/
def afterStarSlash : List Char → Option (List Char)
  | '*' :: '/' :: rest => some rest
  | _ :: rest => afterStarSlash rest
  | [] => none

/-- Fuel-indexed body of the first `stripComments` stage. -/
def stripSlashF : Nat → List Char → List Char
  | 0, l => l
  | fuel + 1, '/' :: c :: rest =>
    if c = '/' ∨ c = '*' then
      match afterStarSlash rest with
      | some rest' => stripSlashF fuel rest'
      | none => '/' :: stripSlashF fuel (c :: rest)
    else '/' :: stripSlashF fuel (c :: rest)
  | fuel + 1, c :: rest => c :: stripSlashF fuel rest
  | _, [] => []

/-- First stage of `stripComments` (block comments and `//…*/` sequences). -/
def stripSlash (l : List Char) : List Char := stripSlashF (l.length + 1) l

/-- Per-line part of the `--.*$` stage: keep the prefix before the first
`--` of the line. -/
def beforeDashDash : List Char → List Char
  | '-' :: '-' :: _ => []
  | c :: rest => c :: beforeDashDash rest
  | [] => []

/-- Second stage of `stripComments`, the regex `--.*$` (flags gm): on every line,
everything from the first `--` to the end of the line is removed. -/
def stripDashes (l : List Char) : List Char :=
  List.intercalate ['\n'] ((l.splitOn '\n').map beforeDashDash)

/-- Third stage of `stripComments`, the regex `/#/gm`: it removes only the
`#` characters themselves, not the rest of the line. -/
def removeHash (l : List Char) : List Char := l.filter (fun c => c ≠ '#')

/-- Embedding of `stripComments` from `bbox.ts`: the three `replace` calls in
source order. -/
def stripComments (l : List Char) : List Char := removeHash (stripDashes (stripSlash l))

/-- Drop a run of whitespace (the JS `\s*`). -/
def dropWs (l : List Char) : List Char := l.dropWhile Char.isWhitespace

/-- Consume `pat` (given in lowercase) case-insensitively from the head of
`l`; returns the unconsumed suffix on success. -/
def matchCI : List Char → List Char → Option (List Char)
  | [], l => some l
  | _ :: _, [] => none
  | p :: ps, c :: cs => if c.toLower = p then matchCI ps cs else none

/-- Attempt to match `\[\s*bbox\s*:\s*([^\]]+)\]` (case-insensitive) at the
head of the list, returning the capture group. The `\s*` runs before `bbox`
and before `:` are deterministic (whitespace never equals the next literal),
but the `\s*` before the capture backtracks: when everything before the next
`]` is whitespace, the capture degenerates to the single character before the
`]`. -/
def matchDirectiveAt (l : List Char) : Option (List Char) :=
  match l with
  | '[' :: rest =>
    match matchCI ['b', 'b', 'o', 'x'] (dropWs rest) with
    | none => none
    | some r2 =>
      match dropWs r2 with
      | ':' :: r4 =>
        let pre := r4.takeWhile (fun c => c ≠ ']')
        match r4.dropWhile (fun c => c ≠ ']') with
        | ']' :: _ =>
          if pre.isEmpty then none
          else
            let ws := pre.takeWhile Char.isWhitespace
            if ws.length < pre.length then some (pre.drop ws.length)
            else some (pre.drop (pre.length - 1))
        | _ => none
      | _ => none
  | _ => none

/-- Leftmost match of the `[bbox:…]` directive regex (non-global `match`). -/
def findDirective : List Char → Option (List Char)
  | [] => none
  | c :: rest =>
    match matchDirectiveAt (c :: rest) with
    | some cap => some cap
    | none => findDirective rest

/-- Character class `[^()]` of the tuple regex. -/
def inTup (c : Char) : Bool := c ≠ '(' && c ≠ ')'

/-- Fuel-indexed scanner for `cleaned.match(/\(([^()]*?-?\d[^()]*)\)/g)`:
a match at `(` extends to the next parenthesis, succeeds when that
parenthesis is `)` and the span contains a digit, and the scan resumes after
the match; otherwise the scan advances one character. -/
def scanTuplesF : Nat → List Char → List (List Char)
  | 0, _ => []
  | _, [] => []
  | fuel + 1, '(' :: rest =>
    let run := rest.takeWhile inTup
    match rest.dropWhile inTup with
    | ')' :: rest2 =>
      if run.any Char.isDigit then ('(' :: (run ++ [')'])) :: scanTuplesF fuel rest2
      else scanTuplesF fuel rest
    | _ => scanTuplesF fuel rest
  | fuel + 1, _ :: rest => scanTuplesF fuel rest

/-- All tuple matches in order. -/
def scanTuples (l : List Char) : List (List Char) := scanTuplesF (l.length + 1) l

/-- Loop over the tuple matches from `extractBoundingBox`: the first tuple
that normalises to a box wins. -/
def firstTupleBox (cleaned : List Char) : Option BoundingBox :=
  (scanTuples cleaned).findSome? normaliseTuple

/-- Embedding of `extractBoundingBox` from `bbox.ts`: strip comments, try the
`[bbox:…]` directive, fall back to scanning parenthesized tuples, else `null`. -/
def extractBoundingBox (query : String) : Option BoundingBox :=
  let cleaned := stripComments query.data
  match findDirective cleaned with
  | some cap =>
    match normaliseTuple cap with
    | some b => some b
    | none => firstTupleBox cleaned
  | none => firstTupleBox cleaned

/-- Attempt to match `out\s*:\s*json` (case-insensitive) at the head. -/
def matchJsonAt (l : List Char) : Bool :=
  match matchCI ['o', 'u', 't'] l with
  | none => false
  | some r1 =>
    match dropWs r1 with
    | ':' :: r2 => (matchCI ['j', 's', 'o', 'n'] (dropWs r2)).isSome
    | _ => false

/-- Scan for `out\s*:\s*json` anywhere in the list. -/
def hasJsonOutputL : List Char → Bool
  | [] => false
  | c :: rest => matchJsonAt (c :: rest) || hasJsonOutputL rest

/-- Embedding of `hasJsonOutput` from `bbox.ts` (regex `/out\s*:\s*json/i`). -/
def hasJsonOutput (q : String) : Bool := hasJsonOutputL q.data

/-- Attempt to match `\[\s*(?:"amenity"|'amenity'|amenity)` at the head. -/
def matchAmenityAt (l : List Char) : Bool :=
  match l with
  | '[' :: rest =>
    let r := dropWs rest
    (matchCI ['"', 'a', 'm', 'e', 'n', 'i', 't', 'y', '"'] r).isSome ||
    (matchCI ['\'', 'a', 'm', 'e', 'n', 'i', 't', 'y', '\''] r).isSome ||
    (matchCI ['a', 'm', 'e', 'n', 'i', 't', 'y'] r).isSome
  | _ => false

/-- Scan for the amenity predicate opener anywhere in the list. -/
def hasAmenityFilterL : List Char → Bool
  | [] => false
  | c :: rest => matchAmenityAt (c :: rest) || hasAmenityFilterL rest

/-- Embedding of `hasAmenityFilter` from `bbox.ts`. -/
def hasAmenityFilter (q : String) : Bool := hasAmenityFilterL q.data

/-! ## Assembler (src/src/assemble.ts) -/

/-- Variant tag of `OverpassElement.type` in `store.ts`:
`'node' | 'way' | 'relation'`. -/
inductive ElemType
  | node
  | way
  | relation
deriving Repr, DecidableEq

/-- Relation member record from `store.ts`. -/
structure Member where
  type : ElemType
  ref : Int
  role : String
deriving Repr, DecidableEq

/-- Embedding of the `OverpassElement` interface of `store.ts`; optional JS
fields become `Option`. -/
structure OverpassElement where
  type : ElemType
  id : Int
  lat : Option Rat := none
  lon : Option Rat := none
  tags : Option (List (String × String)) := none
  nodes : Option (List Int) := none
  members : Option (List Member) := none
deriving Repr, DecidableEq

/-- Embedding of the `OverpassResponse` envelope of `store.ts`. The opaque
`osm3s` metadata object is modelled as an uninterpreted optional string. -/
structure OverpassResponse where
  version : Option Rat := none
  generator : Option String := none
  osm3s : Option String := none
  elements : List OverpassElement
deriving Repr, DecidableEq

/-- Embedding of `cloneElement` from `assemble.ts`: a structural copy of the
record and of its `tags`/`nodes`/`members` containers. In the pure value
model a structural copy is the same value. -/
def cloneElement (e : OverpassElement) : OverpassElement :=
  { type := e.type, id := e.id, lat := e.lat, lon := e.lon,
    tags := e.tags, nodes := e.nodes, members := e.members }

/-- Dedup key of `combineResponses`. The source builds the string
`type:id` by template interpolation; since the three type tags contain no
colon and a decimal integer rendering contains no colon, that string is in
bijection with the pair `(type, id)`, which we use as the key directly. -/
def elementKey (e : OverpassElement) : ElemType × Int := (e.type, e.id)

/-- JS `Map.set` on an insertion-ordered association list: an existing key is
updated in place (keeping its position), a new key is appended at the end. -/
def mapSet (m : List ((ElemType × Int) × OverpassElement)) (k : ElemType × Int)
    (v : OverpassElement) : List ((ElemType × Int) × OverpassElement) :=
  if m.any (fun p => p.1 = k) then m.map (fun p => if p.1 = k then (k, v) else p)
  else m ++ [(k, v)]

/-- Inner loop of `combineResponses`: insert (a clone of) every element of a
payload into the map, keyed by `(type, id)`. -/
def insertElements (m : List ((ElemType × Int) × OverpassElement))
    (es : List OverpassElement) : List ((ElemType × Int) × OverpassElement) :=
  es.foldl (fun m e => mapSet m (elementKey e) (cloneElement e)) m

/-- Embedding of `combineResponses` from `assemble.ts`. The `_bbox` argument
is unused by the source. JS `Map.values()` returns values in insertion order,
modelled by mapping the second components of the association list. -/
def combineResponses (responses : List OverpassResponse) (_bbox : BoundingBox) :
    OverpassResponse :=
  let metadata := responses.map (fun r => (r.version, r.generator, r.osm3s))
  let elements := responses.foldl (fun m r => insertElements m r.elements) []
  let firstMeta := metadata.head?
  { version := firstMeta.bind (fun m => m.1),
    generator := firstMeta.bind (fun m => m.2.1),
    osm3s := firstMeta.bind (fun m => m.2.2),
    elements := elements.map (fun p => p.2) }

/-- Concatenation of all payloads' element lists in iteration order. -/
def combinedList (responses : List OverpassResponse) : List OverpassElement :=
  (responses.map OverpassResponse.elements).flatten

/-- Lookup in the association list modelling the JS `Map` (first entry with
the key; entries are unique by construction). -/
def assocLookup : List ((ElemType × Int) × OverpassElement) → (ElemType × Int) →
    Option OverpassElement
  | [], _ => none
  | p :: rest, k => if p.1 = k then some p.2 else assocLookup rest k

/-- Last element of `es` with the given dedup key, if any. -/
def lastOcc (es : List OverpassElement) (k : ElemType × Int) : Option OverpassElement :=
  (es.filter (fun e => elementKey e = k)).getLast?

/-! ## Upstream pool (src/src/upstream.ts)

The pool's clock calls `Date.now()` and `startOfDayMs` (which depends on the
process's local timezone via `Date.setHours(0,0,0,0)`). The embedding is
parametric in `sod : Int → Int`, the `startOfDayMs` function, and models one
`withUpstream` run at a single instant `now`. `Math.random` selection in
`next` is modelled by an environment-chosen index (any value of the `Nat`
parameter reduced mod the number of candidates, which ranges over exactly the
indices the source can draw). -/

/-- Per-URL `UpstreamState`; `requestsToday` is a count (the source only
resets it to 0 and increments it). -/
structure UpstreamState where
  failedUntil : Int
  blockedUntil : Int
  requestsToday : Nat
  dayStart : Int
deriving Repr, DecidableEq

/-- The `blockDurationMs` constant: 24 hours in milliseconds. -/
def blockDurationMs : Int := 24 * 60 * 60 * 1000

/-- State installed by the `UpstreamPool` constructor for each URL. -/
def initUpstreamState (dayStart : Int) : UpstreamState :=
  ⟨0, 0, 0, dayStart⟩

/-- Embedding of `UpstreamPool.refreshState`: reset the daily counter when
the day boundary moved, and clear an expired quota block. -/
def refreshState (sod : Int → Int) (now : Int) (s : UpstreamState) : UpstreamState :=
  let s1 := if s.dayStart ≠ sod now then { s with dayStart := sod now, requestsToday := 0 } else s
  if s1.blockedUntil > 0 ∧ s1.blockedUntil ≤ now then { s1 with blockedUntil := 0 } else s1

/-- Embedding of `UpstreamPool.markLimitReached` (the logging is dropped). -/
def markLimitReached (now : Int) (s : UpstreamState) : UpstreamState :=
  if s.blockedUntil > now then s else { s with blockedUntil := now + blockDurationMs }

/-- Result alternatives of `tryAcquire`. -/
inductive AcquireResult
  | acquired
  | limit
  | cooldown
  | blocked
deriving Repr, DecidableEq

/-- Embedding of the state transition of `UpstreamPool.tryAcquire` for one
URL's state (the `blocked` arm is the missing-state case at pool level). -/
def tryAcquireState (sod : Int → Int) (dailyLimit : Int) (now : Int) (s : UpstreamState) :
    AcquireResult × UpstreamState :=
  let s := refreshState sod now s
  if s.failedUntil > now then (.cooldown, s)
  else if s.blockedUntil > now then (.limit, s)
  else if 0 ≤ dailyLimit ∧ dailyLimit ≤ (s.requestsToday : Int) then
    (.limit, markLimitReached now s)
  else
    let s := { s with requestsToday := s.requestsToday + 1 }
    if 0 ≤ dailyLimit ∧ dailyLimit ≤ (s.requestsToday : Int) then
      (.acquired, markLimitReached now s)
    else (.acquired, s)

/-- Embedding of `UpstreamPool.markFailure` for one URL's state. -/
def markFailure (cooldownMs now : Int) (s : UpstreamState) : UpstreamState :=
  let cd := max 0 cooldownMs
  { s with failedUntil := if cd = 0 then 0 else now + cd }

/-- Embedding of `UpstreamPool.markSuccess` for one URL's state. -/
def markSuccess (s : UpstreamState) : UpstreamState :=
  { s with failedUntil := 0 }

/-- The pool's `Map<string, UpstreamState>` as an insertion-ordered
association list. -/
abbrev Pool := List (String × UpstreamState)

/-- Lookup of one URL's state (keys are unique: the source `Map` is built
from the URL list). -/
def poolLookup : Pool → String → Option UpstreamState
  | [], _ => none
  | e :: rest, url => if e.1 = url then some e.2 else poolLookup rest url

/-- In-place update of one URL's state. -/
def poolUpdate (p : Pool) (url : String) (s : UpstreamState) : Pool :=
  p.map (fun e => if e.1 = url then (url, s) else e)

/-- Pool-level `tryAcquire`: a URL without state yields `blocked`. -/
def tryAcquirePool (sod : Int → Int) (dl now : Int) (p : Pool) (url : String) :
    AcquireResult × Pool :=
  match poolLookup p url with
  | none => (.blocked, p)
  | some s =>
    let rs := tryAcquireState sod dl now s
    (rs.1, poolUpdate p url rs.2)

/-- Pool-level `markFailure`. -/
def poolMarkFailure (cooldownMs now : Int) (p : Pool) (url : String) : Pool :=
  match poolLookup p url with
  | none => p
  | some s => poolUpdate p url (markFailure cooldownMs now s)

/-- Pool-level `markSuccess`. -/
def poolMarkSuccess (p : Pool) (url : String) : Pool :=
  match poolLookup p url with
  | none => p
  | some s => poolUpdate p url (markSuccess s)

/-- Scan of `UpstreamPool.next`: every entry is refreshed in iteration order;
an at-quota entry is sent through `markLimitReached`; the available URLs are
collected in order. -/
def nextScan (sod : Int → Int) (dl now : Int) (excluded : List String) :
    Pool → Pool × List String
  | [] => ([], [])
  | (url, s) :: rest =>
    let s := refreshState sod now s
    let tail := nextScan sod dl now excluded rest
    if excluded.contains url then ((url, s) :: tail.1, tail.2)
    else if s.failedUntil > now then ((url, s) :: tail.1, tail.2)
    else if s.blockedUntil > now then ((url, s) :: tail.1, tail.2)
    else if 0 ≤ dl ∧ dl ≤ (s.requestsToday : Int) then
      ((url, markLimitReached now s) :: tail.1, tail.2)
    else ((url, s) :: tail.1, url :: tail.2)

/-- Embedding of `UpstreamPool.next`: after the scan, one available URL is
drawn at random; the environment index `r` (taken mod the candidate count)
models `Math.floor(Math.random() * available.length)`. -/
def nextUrl (sod : Int → Int) (dl now : Int) (p : Pool) (excluded : List String) (r : Nat) :
    Option String × Pool :=
  let scanned := nextScan sod dl now excluded p
  match scanned.2 with
  | [] => (none, scanned.1)
  | avail => (some (avail.getD (r % avail.length) ""), scanned.1)

/-- Scan of `UpstreamPool.isExhaustedByLimit`: entries are refreshed in
order, and the loop returns `false` early at the first URL that is neither
quota-blocked nor at quota (leaving later entries untouched). -/
def exhaustScan (sod : Int → Int) (dl now : Int) : Pool → Pool × Bool
  | [] => ([], true)
  | (url, s) :: rest =>
    let s := refreshState sod now s
    if s.blockedUntil ≤ now ∧ (s.requestsToday : Int) < dl then ((url, s) :: rest, false)
    else
      let tail := exhaustScan sod dl now rest
      ((url, s) :: tail.1, tail.2)

/-- Embedding of `UpstreamPool.isExhaustedByLimit`. -/
def isExhaustedByLimit (sod : Int → Int) (dl now : Int) (p : Pool) : Pool × Bool :=
  if dl < 0 ∨ p.length = 0 then (p, false)
  else exhaustScan sod dl now p

/-- Errors observable by `withUpstream`: a `got.RequestError` with an
optional HTTP status, or a plain `Error` with a message. -/
inductive UErr
  | request (status : Option Nat)
  | generic (msg : String)
deriving Repr, DecidableEq

/-- Embedding of `shouldMarkFailure` from `upstream.ts`. -/
def shouldMarkFailure : UErr → Bool
  | .request (some status) => if status < 500 ∧ status ≠ 429 then false else true
  | .request none => true
  | .generic _ => true

/-- Observable events of one `withUpstream` run, in order. -/
inductive UpEvent
  | notAcquired (url : String) (r : AcquireResult)
  | clientError (url : String) (e : UErr)
  | failedOver (url : String) (e : UErr)
  | succeeded (url : String)
deriving Repr, DecidableEq

/-- The message synthesized when `tryAcquire` answers `limit`. -/
def limitMsg (url : String) : UErr :=
  .generic ("Upstream daily request limit reached for " ++ url)

/-- The error thrown when the loop ends and every URL is quota-blocked. -/
def allLimitsErr : UErr :=
  .generic "Upstream daily request limit reached for all configured upstreams"

/-- The fallback error when the loop ends with no recorded error. -/
def noUrlsErr : UErr := .generic "No upstream URLs available"

/-- Epilogue of `withUpstream` after the loop: synthesize the daily-limit
error when the pool is exhausted by quota, otherwise raise the last error. -/
def runFinish {α : Type} (sod : Int → Int) (dl now : Int) (p : Pool) (lastErr : Option UErr)
    (tr : List UpEvent) : Except UErr α × Pool × List UpEvent :=
  let ex := isExhaustedByLimit sod dl now p
  if ex.2 then (.error allLimitsErr, ex.1, tr)
  else
    match lastErr with
    | some e => (.error e, ex.1, tr)
    | none => (.error noUrlsErr, ex.1, tr)

/-- Fuel-indexed embedding of the `withUpstream` loop. Each iteration either
returns or appends a fresh URL to `attempted`, so `p.length + 1` fuel always
reaches a genuine exit. `fn` gives each URL's outcome (each URL is called at
most once per run); `rands` feeds the random candidate choices. -/
def runUpstreamF {α : Type} (sod : Int → Int) (dl cooldownMs now : Int)
    (fn : String → Except UErr α) :
    Nat → Pool → List String → List Nat → Option UErr → List UpEvent →
    Except UErr α × Pool × List UpEvent
  | 0, p, _, _, lastErr, tr => runFinish sod dl now p lastErr tr
  | fuel + 1, p, attempted, rands, lastErr, tr =>
    if attempted.length < p.length then
      match nextUrl sod dl now p attempted (rands.headD 0) with
      | (none, p1) => runFinish sod dl now p1 lastErr tr
      | (some url, p1) =>
        match tryAcquirePool sod dl now p1 url with
        | (.acquired, p2) =>
          match fn url with
          | .ok v => (.ok v, poolMarkSuccess p2 url, tr ++ [.succeeded url])
          | .error e =>
            if shouldMarkFailure e then
              runUpstreamF sod dl cooldownMs now fn fuel (poolMarkFailure cooldownMs now p2 url)
                (attempted ++ [url]) rands.tail (some e) (tr ++ [.failedOver url e])
            else (.error e, p2, tr ++ [.clientError url e])
        | (r, p2) =>
          runUpstreamF sod dl cooldownMs now fn fuel p2 (attempted ++ [url]) rands.tail
            (if r = .limit then some (limitMsg url) else lastErr)
            (tr ++ [.notAcquired url r])
    else runFinish sod dl now p lastErr tr

/-- Embedding of `withUpstream`: the empty-pool guard, then the loop. -/
def runUpstream {α : Type} (sod : Int → Int) (dl cooldownMs now : Int)
    (fn : String → Except UErr α) (p : Pool) (rands : List Nat) :
    Except UErr α × Pool × List UpEvent :=
  if p.length = 0 then (.error (.generic "No upstream URLs configured"), p, [])
  else runUpstreamF sod dl cooldownMs now fn (p.length + 1) p [] rands none []

/-- Embedding of the amenity escaping in `buildTileQuery`:
`amenity.replace` of every double quote by backslash-quote. -/
def escapeAmenity (s : String) : String :=
  String.mk ((s.data.map (fun c => if c = '"' then ['\\', '"'] else [c])).flatten)

/-- Rendering of one `(south,west,north,east)` interpolation of
`buildTileQuery`; `rn` renders a JS number (JS float formatting is not
modelled, the escaping claims do not depend on it). -/
def tupleStr (rn : Rat → String) (b : BoundingBox) : String :=
  "(" ++ rn b.south ++ "," ++ rn b.west ++ "," ++ rn b.north ++ "," ++ rn b.east ++ ")"

/-- Embedding of `buildTileQuery` from `upstream.ts` (template literal,
including its leading line break after `[`). -/
def buildTileQuery (rn : Rat → String) (bbox : BoundingBox) (amenity : String) : String :=
  let e := escapeAmenity amenity
  "[\n  out:json][timeout:120];\n(\n  node[\"amenity\"=\"" ++ e ++ "\"]" ++ tupleStr rn bbox ++
    ";\n  way[\"amenity\"=\"" ++ e ++ "\"]" ++ tupleStr rn bbox ++
    ";\n  relation[\"amenity\"=\"" ++ e ++ "\"]" ++ tupleStr rn bbox ++
    ";\n);\nout body meta;\n>;\nout skel qt;"

/-- Counting runner for claim C5: perform `tryAcquire` at each instant of
`ts` in order, returning how many calls answered `acquired`. -/
def runAcquires (sod : Int → Int) (dl : Int) : List Int → UpstreamState → Nat × UpstreamState
  | [], s => (0, s)
  | t :: ts, s =>
    let rs := tryAcquireState sod dl t s
    let rec' := runAcquires sod dl ts rs.2
    (if rs.1 = .acquired then rec'.1 + 1 else rec'.1, rec'.2)

/-- One pool operation on a single URL's state, for stating state invariants. -/
inductive PoolOp
  | acquire (t : Int)
  | fail (t : Int)
  | success
deriving Repr, DecidableEq

/-- Apply one operation to a state. -/
def applyOp (sod : Int → Int) (dl cooldownMs : Int) : PoolOp → UpstreamState → UpstreamState
  | .acquire t, s => (tryAcquireState sod dl t s).2
  | .fail t, s => markFailure cooldownMs t s
  | .success, s => markSuccess s

/-- Apply a list of operations from left to right. -/
def applyOps (sod : Int → Int) (dl cooldownMs : Int) (ops : List PoolOp)
    (s : UpstreamState) : UpstreamState :=
  ops.foldl (fun s op => applyOp sod dl cooldownMs op s) s

/-! ## Fetch planner (src/fetchPlan.ts, `src/unnamed/part_019`, second variant) -/

/-- Tile record from `tiling.ts`: geohash and decoded bounds. -/
structure TileInfo where
  hash : String
  bounds : BoundingBox
deriving Repr, DecidableEq

/-- Output group of the planner. -/
structure TileFetchGroup where
  bounds : BoundingBox
  tiles : List TileInfo
deriving Repr, DecidableEq

/-- Embedding of `area` from `fetchPlan.ts`. -/
def area (b : BoundingBox) : Rat :=
  max 0 (b.east - b.west) * max 0 (b.north - b.south)

/-- Embedding of `expandBounds` from `fetchPlan.ts`. -/
def expandBounds (current addition : BoundingBox) : BoundingBox :=
  ⟨min current.south addition.south, min current.west addition.west,
    max current.north addition.north, max current.east addition.east⟩

/-- Hash order used by `sorted = [...tiles].sort((a, b) => a.hash.localeCompare(b.hash))`;
`localeCompare` on geohash strings (lowercase alphanumerics) is plain
lexicographic order. -/
def hashLe (a b : TileInfo) : Prop := a.hash ≤ b.hash

instance : DecidableRel hashLe := fun a b => inferInstanceAs (Decidable (a.hash ≤ b.hash))

instance : IsTotal TileInfo hashLe := ⟨fun a b => le_total a.hash b.hash⟩

instance : IsTrans TileInfo hashLe := ⟨fun _ _ _ h1 h2 => le_trans h1 h2⟩

/-- Loop body of `groupCoarseTiles`: `remaining` is the unprocessed suffix of
the sorted tiles, `(curT, curB, refA)` are `currentTiles`, `currentBounds`
and `referenceArea`; emitted groups are returned in order. -/
def groupLoop (target : Nat) : List TileInfo → List TileInfo → BoundingBox → Rat →
    List TileFetchGroup
  | [], curT, curB, _ => [⟨curB, curT⟩]
  | tile :: rest, curT, curB, refA =>
    if target ≤ curT.length then
      ⟨curB, curT⟩ :: groupLoop target rest [tile] tile.bounds (area tile.bounds)
    else
      let nextB := expandBounds curB tile.bounds
      let nextA := area nextB
      let nextRef := max refA (area tile.bounds)
      let lim := nextRef * (target : Rat)
      if 0 < lim ∧ lim < nextA then
        ⟨curB, curT⟩ :: groupLoop target rest [tile] tile.bounds (area tile.bounds)
      else groupLoop target rest (curT ++ [tile]) nextB nextRef

/-- Embedding of `groupCoarseTiles` from `fetchPlan.ts`: sort by hash, then
partition the run into groups bounded by the target size and the area guard. -/
def groupCoarseTiles (tiles : List TileInfo) (targetSize : Nat) : List TileFetchGroup :=
  match List.insertionSort hashLe tiles with
  | [] => []
  | t :: rest => groupLoop targetSize rest [t] t.bounds (area t.bounds)

/-- Comparator order of `sortGroups`: lexicographic on
(south, west, north, east). -/
def groupLE (a b : TileFetchGroup) : Prop :=
  a.bounds.south < b.bounds.south ∨ (a.bounds.south = b.bounds.south ∧
    (a.bounds.west < b.bounds.west ∨ (a.bounds.west = b.bounds.west ∧
      (a.bounds.north < b.bounds.north ∨ (a.bounds.north = b.bounds.north ∧
        a.bounds.east ≤ b.bounds.east)))))

instance : DecidableRel groupLE := fun a b => by
  unfold groupLE; infer_instance

/-- Embedding of `sortGroups`: a sort by the four-component comparator. The
source uses the engine's `Array.sort`; any sorting algorithm realises the
same contract (a sorted permutation), modelled with insertion sort. -/
def sortGroups (gs : List TileFetchGroup) : List TileFetchGroup :=
  List.insertionSort groupLE gs

/-- Embedding of `clampTargetTiles` from `fetchPlan.ts` (`Number.isFinite`
always holds in the exact model). -/
def clampTargetTiles (value : Rat) : Nat :=
  if value ≤ 0 then 16 else (min 256 (max 8 ⌊value⌋)).toNat

/-- Plan options of `planTileFetches`; precisions are the configured geohash
lengths. -/
structure PlanOptions where
  coarsePrecision : Nat
  finePrecision : Nat
  targetTilesPerRequest : Option Rat := none
deriving Repr, DecidableEq

/-- Appending a tile to its coarse bucket (JS `Map` keyed by hash slice,
values pushed in iteration order). -/
def bucketAdd (m : List (String × List TileInfo)) (k : String) (t : TileInfo) :
    List (String × List TileInfo) :=
  if m.any (fun e => e.1 = k) then m.map (fun e => if e.1 = k then (k, e.2 ++ [t]) else e)
  else m ++ [(k, [t])]

/-- The `byCoarse` grouping of `planTileFetches`: bucket by the
`coarsePrecision`-length slice of the hash (`String.take` clamps exactly like
`slice(0, Math.min(precision, hash.length))`). -/
def byCoarse (coarse : Nat) (tiles : List TileInfo) : List (String × List TileInfo) :=
  tiles.foldl (fun m t => bucketAdd m (t.hash.take coarse) t) []

/-- Embedding of `planTileFetches` from `fetchPlan.ts` (second variant). The
default target is `32 ^ (fine − coarse) / 8` clamped; a supplied target of 0
is falsy in JS and also falls back to the default. -/
def planTileFetches (tiles : List TileInfo) (options : PlanOptions) : List TileFetchGroup :=
  if tiles.length = 0 then []
  else
    let diff := options.finePrecision - options.coarsePrecision
    let defaultTarget := clampTargetTiles (mkRat ((32 : Nat) ^ diff) 8)
    let desired :=
      match options.targetTilesPerRequest with
      | some v => if v = 0 then defaultTarget else clampTargetTiles v
      | none => defaultTarget
    let buckets := byCoarse options.coarsePrecision tiles
    let groups := (buckets.map (fun b => if b.2.length = 0 then [] else groupCoarseTiles b.2 desired)).flatten
    sortGroups groups

/-! ## Interpreter dispatch (src/src/interpreter.ts)

The claims about the route concern control flow: which validation fires, in
which order, and that a `413` rejection precedes any store read or upstream
fetch. The tile pipeline past its first effect (`store.readTiles`) is
truncated; the geohash tiling (`tilesForBoundingBox`, an external component
with respect to these claims) is a parameter. -/

/-- Body variants a Fastify handler can observe (`string`, `Buffer`, parsed
form object with an optional `data` field, or absent). -/
inductive ReqBody
  | empty
  | text (s : String)
  | buffer (s : String)
  | form (dataField : Option String)
deriving Repr, DecidableEq

/-- The request facts `requestBodyToQuery` and the route inspect. An array
`data` query parameter is collapsed to its first element as in the source. -/
structure InterpreterRequest where
  isGet : Bool
  paramData : Option String := none
  paramQ : Option String := none
  body : ReqBody := .empty
deriving Repr, DecidableEq

/-- Embedding of `requestBodyToQuery` from `interpreter.ts`, including the
JS falsiness checks (`!data` and `!request.body` are true for the empty
string but false for an empty `Buffer` or a form value). -/
def requestBodyToQuery (req : InterpreterRequest) : Option String :=
  if req.isGet then
    let data := match req.paramData with
      | some d => some d
      | none => req.paramQ
    match data with
    | none => none
    | some d => if d.isEmpty then none else some d
  else
    match req.body with
    | .empty => none
    | .text s => if s.isEmpty then none else some s
    | .buffer s => some s
    | .form d =>
      match d with
      | some s => some s
      | none => none

/-- The JS `if (!query)` route guard: null or empty string. -/
def queryMissing : Option String → Bool
  | none => true
  | some s => s.isEmpty

/-- Externally visible effects of the dispatch prefix. -/
inductive Eff
  | storeRead
  | upstreamFetch
deriving Repr, DecidableEq

/-- Outcome of the dispatch prefix of the `/api/interpreter` handler. -/
inductive DispatchOutcome
  | proxied
  | badRequest (msg : String)
  | tooManyTiles (msg : String)
  | cachePipeline (bbox : BoundingBox) (tiles : List TileInfo)
deriving Repr, DecidableEq

/-- Embedding of the prefix of `handleCacheable`: bbox validation, tiling,
and the `TooManyTilesError` guard (caught by the route as a `413` whose body
message is `Request requires N tiles`); past the guard the handler's first
effect is the `store.readTiles` bulk read. -/
def handleCacheableStart (tilesFor : BoundingBox → List TileInfo) (maxTilesPerRequest : Nat)
    (query : String) : DispatchOutcome × List Eff :=
  match extractBoundingBox query with
  | none => (.badRequest "Bounding box required", [])
  | some bbox =>
    let tiles := tilesFor bbox
    if maxTilesPerRequest < tiles.length then
      (.tooManyTiles ("Request requires " ++ toString tiles.length ++ " tiles"), [])
    else (.cachePipeline bbox tiles, [.storeRead])

/-- Embedding of the `/api/interpreter` route handler of
`registerInterpreterRoutes`: transparent-only short circuit, query presence,
classifier delegation, then `handleCacheable`. -/
def interpreterRoute (tilesFor : BoundingBox → List TileInfo) (maxTilesPerRequest : Nat)
    (transparentOnly : Bool) (req : InterpreterRequest) : DispatchOutcome × List Eff :=
  if transparentOnly then (.proxied, [.upstreamFetch])
  else
    let query := requestBodyToQuery req
    if queryMissing query then (.badRequest "Query payload required", [])
    else
      match query with
      | none => (.badRequest "Query payload required", [])
      | some q =>
        if !(hasJsonOutput q) || !(hasAmenityFilter q) then (.proxied, [.upstreamFetch])
        else handleCacheableStart tilesFor maxTilesPerRequest q

/-! ## Claim-side definitions

The following definitions are written from the words of the spec sentences
under test (not from the source); each is compared against the corresponding
source embedding above. -/

/-- Per-line stripping of a `//` line comment, as the spec's words describe
(`strips //` comments): cut from the first `//` to the end of the line. -/
def beforeSlashSlash : List Char → List Char
  | '/' :: '/' :: _ => []
  | c :: rest => c :: beforeSlashSlash rest
  | [] => []

/-- Per-line stripping of a `#` line comment, as the spec's words describe:
cut from the first `#` to the end of the line. -/
def beforeHashChar : List Char → List Char
  | '#' :: _ => []
  | c :: rest => c :: beforeHashChar rest
  | [] => []

/-- Line-wise comment stripping with the given per-line cut. -/
def stripLinesWith (f : List Char → List Char) (l : List Char) : List Char :=
  List.intercalate ['\n'] ((l.splitOn '\n').map f)

/-- Fuel-indexed stripping of proper `/* … */` block comments, as the spec's
words describe. -/
def stripBlockClaimF : Nat → List Char → List Char
  | 0, l => l
  | fuel + 1, '/' :: '*' :: rest =>
    match afterStarSlash rest with
    | some rest' => stripBlockClaimF fuel rest'
    | none => '/' :: stripBlockClaimF fuel ('*' :: rest)
  | fuel + 1, c :: rest => c :: stripBlockClaimF fuel rest
  | _, [] => []

/-- Comment stripping as claim C4 words it: strip `/* */` block comments,
`//` line comments, `--` line comments, and `#` line comments. -/
def stripCommentsClaim (l : List Char) : List Char :=
  stripLinesWith beforeHashChar
    (stripLinesWith beforeDashDash
      (stripLinesWith beforeSlashSlash (stripBlockClaimF (l.length + 1) l)))

/-- The extractor claim C4 describes: the claimed comment stripping followed
by the directive/tuple search. -/
def extractBoundingBoxClaim (query : String) : Option BoundingBox :=
  let cleaned := stripCommentsClaim query.data
  match findDirective cleaned with
  | some cap =>
    match normaliseTuple cap with
    | some b => some b
    | none => firstTupleBox cleaned
  | none => firstTupleBox cleaned

/-- Spec-side restatement of the amended claim C4: after the source's comment
stripping, take the `[bbox:…]` directive when its capture contains exactly four
numbers, otherwise the first parenthesized tuple containing exactly four
numbers (in order south, west, north, east); otherwise nothing. -/
def extractBoundingBoxSpec (query : String) : Option BoundingBox :=
  let cleaned := stripComments query.data
  let fromDirective :=
    match (findDirective cleaned).map scanNumbers with
    | some [s, w, n, e] => some (⟨s, w, n, e⟩ : BoundingBox)
    | _ => none
  match fromDirective with
  | some b => some b
  | none =>
    (scanTuples cleaned).findSome? (fun t =>
      match scanNumbers t with
      | [s, w, n, e] => some (⟨s, w, n, e⟩ : BoundingBox)
      | _ => none)

/-- The escaping claim C8 describes: each double quote doubled. -/
def escapeAmenityClaim (s : String) : String :=
  String.mk ((s.data.map (fun c => if c = '"' then ['"', '"'] else [c])).flatten)

/-- `buildTileQuery` as claim C8 words it, with the doubled-quote escape. -/
def buildTileQueryClaim (rn : Rat → String) (bbox : BoundingBox) (amenity : String) : String :=
  let e := escapeAmenityClaim amenity
  "[\n  out:json][timeout:120];\n(\n  node[\"amenity\"=\"" ++ e ++ "\"]" ++ tupleStr rn bbox ++
    ";\n  way[\"amenity\"=\"" ++ e ++ "\"]" ++ tupleStr rn bbox ++
    ";\n  relation[\"amenity\"=\"" ++ e ++ "\"]" ++ tupleStr rn bbox ++
    ";\n);\nout body meta;\n>;\nout skel qt;"

/-! ## Derived definitions used by the claim statements -/

/-- Coordinate-wise union of a nonempty tile run's bounds, as the planner
accumulates it (`expandBounds` folded over the tail). -/
def tilesBounds (t : TileInfo) (ts : List TileInfo) : BoundingBox :=
  ts.foldl (fun b u => expandBounds b u.bounds) t.bounds

instance : IsTotal TileFetchGroup groupLE := by
  constructor
  intro a b
  unfold groupLE
  rcases lt_trichotomy a.bounds.south b.bounds.south with h | h | h
  · exact Or.inl (Or.inl h)
  · rcases lt_trichotomy a.bounds.west b.bounds.west with h2 | h2 | h2
    · exact Or.inl (Or.inr ⟨h, Or.inl h2⟩)
    · rcases lt_trichotomy a.bounds.north b.bounds.north with h3 | h3 | h3
      · exact Or.inl (Or.inr ⟨h, Or.inr ⟨h2, Or.inl h3⟩⟩)
      · rcases le_total a.bounds.east b.bounds.east with h4 | h4
        · exact Or.inl (Or.inr ⟨h, Or.inr ⟨h2, Or.inr ⟨h3, h4⟩⟩⟩)
        · exact Or.inr (Or.inr ⟨h.symm, Or.inr ⟨h2.symm, Or.inr ⟨h3.symm, h4⟩⟩⟩)
      · exact Or.inr (Or.inr ⟨h.symm, Or.inr ⟨h2.symm, Or.inl h3⟩⟩)
    · exact Or.inr (Or.inr ⟨h.symm, Or.inl h2⟩)
  · exact Or.inr (Or.inl h)

instance : IsTrans TileFetchGroup groupLE := by
  constructor
  intro a b c hab hbc
  unfold groupLE at hab hbc ⊢
  rcases hab with h1 | ⟨e1, hab⟩
  · rcases hbc with h2 | ⟨e2, _⟩
    · exact Or.inl (lt_trans h1 h2)
    · exact Or.inl (e2 ▸ h1)
  · rcases hbc with h2 | ⟨e2, hbc⟩
    · exact Or.inl (e1 ▸ h2)
    · refine Or.inr ⟨e1.trans e2, ?_⟩
      rcases hab with h1 | ⟨f1, hab⟩
      · rcases hbc with h2 | ⟨f2, _⟩
        · exact Or.inl (lt_trans h1 h2)
        · exact Or.inl (f2 ▸ h1)
      · rcases hbc with h2 | ⟨f2, hbc⟩
        · exact Or.inl (f1 ▸ h2)
        · refine Or.inr ⟨f1.trans f2, ?_⟩
          rcases hab with h1 | ⟨g1, hab⟩
          · rcases hbc with h2 | ⟨g2, _⟩
            · exact Or.inl (lt_trans h1 h2)
            · exact Or.inl (g2 ▸ h1)
          · rcases hbc with h2 | ⟨g2, hbc⟩
            · exact Or.inl (g1 ▸ h2)
            · exact Or.inr ⟨g1.trans g2, le_trans hab hbc⟩

/-- Does the event record a call of `fn` on this URL (an acquisition that
reached the request)? -/
def isFnEvent (url : String) : UpEvent → Bool
  | .succeeded u => u = url
  | .failedOver u _ => u = url
  | .clientError u _ => u = url
  | .notAcquired _ _ => false

/-- Number of `fn` calls (equivalently, successful acquisitions) for a URL
recorded in a trace. -/
def fnEventCount (tr : List UpEvent) (url : String) : Nat :=
  (tr.filter (isFnEvent url)).length

/-- The update an event applies to the loop's `lastError` variable. -/
def eventError : UpEvent → Option UErr
  | .failedOver _ e => some e
  | .notAcquired u r => if r = .limit then some (limitMsg u) else none
  | .clientError _ _ => none
  | .succeeded _ => none

/-- The value of `lastError` after a trace. -/
def tracedLastError (tr : List UpEvent) : Option UErr :=
  tr.foldl (fun acc ev => match eventError ev with | some e => some e | none => acc) none

/-- The URL an event concerns. -/
def eventUrl : UpEvent → String
  | .notAcquired u _ => u
  | .clientError u _ => u
  | .failedOver u _ => u
  | .succeeded u => u

/-- The `failedUntil` value installed by `markFailure` at instant `now`. -/
def failValue (cooldownMs now : Int) : Int :=
  if max 0 cooldownMs = 0 then 0 else now + max 0 cooldownMs

/-- Full dissection of a `withUpstream` loop run that starts from pool `p`
with `attempted` already tried and trace `tr`: the new events `Δ` target
fresh URLs; cooldown stamps change exactly as dictated by `markFailure` and
`markSuccess` events; daily counters advance by the fn calls recorded; a
client error is terminal and unmarked; and the returned value or error is
classified against the trace. -/
def RunSpec {α : Type} (cooldownMs now : Int) (fn : String → Except UErr α)
    (p : Pool) (attempted : List String) (tr : List UpEvent)
    (r : Except UErr α) (pool' : Pool) (trace' : List UpEvent) : Prop :=
  ∃ Δ : List UpEvent,
    trace' = tr ++ Δ ∧
    (∀ ev ∈ Δ, eventUrl ev ∉ attempted) ∧
    (∀ u, (∀ e, UpEvent.failedOver u e ∉ Δ) → UpEvent.succeeded u ∉ Δ →
      (poolLookup pool' u).map (fun s => s.failedUntil) =
        (poolLookup p u).map (fun s => s.failedUntil)) ∧
    (∀ u e, UpEvent.failedOver u e ∈ Δ →
      (poolLookup pool' u).map (fun s => s.failedUntil) = some (failValue cooldownMs now)) ∧
    (∀ u, UpEvent.succeeded u ∈ Δ →
      (poolLookup pool' u).map (fun s => s.failedUntil) = some 0) ∧
    (∀ u, (poolLookup pool' u).map (fun s => s.requestsToday) =
      (poolLookup p u).map (fun s => s.requestsToday + fnEventCount Δ u)) ∧
    (∀ u e, UpEvent.clientError u e ∈ Δ →
      r = .error e ∧ fn u = .error e ∧ shouldMarkFailure e = false ∧
      Δ.getLast? = some (.clientError u e)) ∧
    (∀ u e, UpEvent.failedOver u e ∈ Δ → fn u = .error e ∧ shouldMarkFailure e = true) ∧
    (∀ u, UpEvent.succeeded u ∈ Δ → ∃ v, fn u = .ok v ∧ r = .ok v) ∧
    (∀ v, r = .ok v → ∃ u, Δ.getLast? = some (.succeeded u) ∧ fn u = .ok v) ∧
    (∀ e, r = .error e →
      e = allLimitsErr ∨ (∃ u, Δ.getLast? = some (.clientError u e)) ∨
      tracedLastError (tr ++ Δ) = some e ∨
      (tracedLastError (tr ++ Δ) = none ∧ e = noUrlsErr)) ∧
    Δ.Pairwise (fun a b => eventUrl a ≠ eventUrl b)

/-- Concrete clock for exercising the upstream pool: every instant lies in
the day starting at 0. -/
def cSod : Int → Int := fun _ => 0

/-- Concrete two-URL pool as built by the `UpstreamPool` constructor. -/
def cPool : Pool := [("a", initUpstreamState 0), ("b", initUpstreamState 0)]

/-- Concrete request function: upstream "a" answers HTTP 503, "b" succeeds. -/
def cFn : String → Except UErr Nat :=
  fun u => if u = "a" then Except.error (UErr.request (some 503)) else Except.ok 7

/-- The concrete `withUpstream` run: daily limit 10, cooldown 5000 ms,
instant 100, first random draw picks "a". -/
def cRun : Except UErr Nat × Pool × List UpEvent :=
  runUpstream cSod 10 5000 100 cFn cPool [0, 0]

/-! ## Theorems -/

/-- Sanity checks of the query-inspection embedding against the behaviours
exercised by the repository's bbox unit tests: tuple and directive parsing,
three-number tuples, comment stripping, and the case-insensitive output and
amenity probes. -/
theorem queryInspection_checks :
    extractBoundingBox "node(1.0,2.0,3.0,4.0);out:json;" = some ⟨1, 2, 3, 4⟩ ∧
    extractBoundingBox "[bbox:1.1,2.2,3.3,4.4];node;out:json;" =
      some ⟨mkRat 11 10, mkRat 22 10, mkRat 33 10, mkRat 44 10⟩ ∧
    extractBoundingBox "node(1,2,3);out:json;" = none ∧
    extractBoundingBox "/* comment */ node(1,2,3,4); // inline\nout:json;" =
      some ⟨1, 2, 3, 4⟩ ∧
    hasJsonOutput "OUT:JSON;" = true ∧
    hasJsonOutput "out:xml;" = false ∧
    hasAmenityFilter "node[\"AMENITY\"];" = true ∧
    hasAmenityFilter "node[\"shop\"];" = false := by
  refine ⟨by decide, by decide, by decide, by decide, by decide, by decide, by decide,
    by decide⟩

/-- C3: on the `/api/interpreter` route (cache mode): an unextractable or
empty query yields 400 "Query payload required"; a query without JSON output
or without an amenity filter is delegated to the pass-through proxy, not
rejected; otherwise a missing bounding box yields 400 "Bounding box
required"; and a tile count above `maxTilesPerRequest` yields 413 with body
message `Request requires N tiles`, with no store read and no upstream fetch
having happened. -/
theorem C3_validation_order (tilesFor : BoundingBox → List TileInfo) (maxTiles : Nat)
    (req : InterpreterRequest) :
    (queryMissing (requestBodyToQuery req) = true →
      interpreterRoute tilesFor maxTiles false req = (.badRequest "Query payload required", [])) ∧
    (∀ q, requestBodyToQuery req = some q → q.isEmpty = false →
      (hasJsonOutput q = false ∨ hasAmenityFilter q = false) →
      interpreterRoute tilesFor maxTiles false req = (.proxied, [.upstreamFetch])) ∧
    (∀ q, requestBodyToQuery req = some q → q.isEmpty = false →
      hasJsonOutput q = true → hasAmenityFilter q = true → extractBoundingBox q = none →
      interpreterRoute tilesFor maxTiles false req = (.badRequest "Bounding box required", [])) ∧
    (∀ q b, requestBodyToQuery req = some q → q.isEmpty = false →
      hasJsonOutput q = true → hasAmenityFilter q = true → extractBoundingBox q = some b →
      maxTiles < (tilesFor b).length →
      interpreterRoute tilesFor maxTiles false req =
        (.tooManyTiles ("Request requires " ++ toString (tilesFor b).length ++ " tiles"), [])) := by
  refine ⟨?_, ?_, ?_, ?_⟩
  · intro h
    simp [interpreterRoute, h]
  · intro q hq hne hcls
    rcases hcls with h | h <;>
      simp [interpreterRoute, hq, queryMissing, hne, h]
  · intro q hq hne hj ha hb
    simp [interpreterRoute, hq, queryMissing, hne, hj, ha, handleCacheableStart, hb]
  · intro q b hq hne hj ha hb hcount
    simp [interpreterRoute, hq, queryMissing, hne, hj, ha, handleCacheableStart, hb, hcount]

/-- Witness for C3: a concrete GET request whose query has JSON output, an
amenity filter and a bbox spanning two model tiles against a budget of one
yields the 413 with an empty effect list. -/
theorem C3_validation_order_witness :
    interpreterRoute
      (fun _ => [⟨"t1", ⟨0, 0, 1, 1⟩⟩, ⟨"t2", ⟨1, 0, 2, 1⟩⟩]) 1 false
      { isGet := true, paramData := some "[out:json];node[\"amenity\"=\"cafe\"](1,2,3,4);out;" } =
      (.tooManyTiles "Request requires 2 tiles", []) :=
  (C3_validation_order
      (fun _ => [⟨"t1", ⟨0, 0, 1, 1⟩⟩, ⟨"t2", ⟨1, 0, 2, 1⟩⟩]) 1
      { isGet := true, paramData := some "[out:json];node[\"amenity\"=\"cafe\"](1,2,3,4);out;" }).2.2.2
    "[out:json];node[\"amenity\"=\"cafe\"](1,2,3,4);out;" ⟨1, 2, 3, 4⟩
    (by decide) (by decide) (by decide) (by decide) (by decide) (by decide)

/-- A structural copy is the same value in the pure model. -/
theorem cloneElement_id (e : OverpassElement) : cloneElement e = e := rfl


/-- An update targeting a key absent from the list is the identity. -/
theorem map_update_of_any_false (m : List ((ElemType × Int) × OverpassElement))
    (k : ElemType × Int) (v : OverpassElement)
    (h : m.any (fun p => p.1 = k) = false) :
    m.map (fun p => if p.1 = k then (k, v) else p) = m := by
  induction m with
  | nil => rfl
  | cons p rest ih =>
    simp only [List.any_cons, Bool.or_eq_false_iff] at h
    have hp : ¬p.1 = k := by simpa using h.1
    simp [hp, ih h.2]

/-- Lookup after the in-place update arm of `mapSet`. -/
theorem assocLookup_update (m : List ((ElemType × Int) × OverpassElement))
    (k k' : ElemType × Int) (v : OverpassElement)
    (hany : m.any (fun p => p.1 = k) = true) :
    assocLookup (m.map (fun p => if p.1 = k then (k, v) else p)) k' =
      if k' = k then some v else assocLookup m k' := by
  induction m with
  | nil => simp at hany
  | cons p rest ih =>
    by_cases hp : p.1 = k
    · by_cases hk : k' = k
      · subst hk
        simp [assocLookup, List.map_cons, if_pos hp]
      · have h1 : ¬(k = k') := fun h => hk h.symm
        have h2 : ¬(p.1 = k') := by rw [hp]; exact h1
        simp only [List.map_cons, if_pos hp, assocLookup, if_neg h1, if_neg h2, if_neg hk]
        by_cases hrest : rest.any (fun p => p.1 = k) = true
        · simpa [hk] using ih hrest
        · have hrf : rest.any (fun p => p.1 = k) = false := by
            cases hh : rest.any (fun p => p.1 = k) <;> simp_all
          rw [map_update_of_any_false rest k v hrf]
    · have hrest : rest.any (fun p => p.1 = k) = true := by
        simp only [List.any_cons, Bool.or_eq_true] at hany
        rcases hany with h | h
        · exact absurd (of_decide_eq_true h) hp
        · exact h
      by_cases hpk : p.1 = k'
      · have hk : ¬k' = k := fun h => hp (hpk.trans h)
        simp [assocLookup, hp, hpk, hk]
      · simp only [List.map_cons, if_neg hp, assocLookup, if_neg hpk]
        exact ih hrest

/-- Lookup after the append arm of `mapSet`. -/
theorem assocLookup_append_single (m : List ((ElemType × Int) × OverpassElement))
    (k k' : ElemType × Int) (v : OverpassElement)
    (hany : m.any (fun p => p.1 = k) = false) :
    assocLookup (m ++ [(k, v)]) k' = if k' = k then some v else assocLookup m k' := by
  induction m with
  | nil =>
    by_cases hk : k' = k
    · subst hk; simp [assocLookup]
    · have h1 : ¬(k = k') := fun h => hk h.symm
      simp [assocLookup, if_neg h1, hk]
  | cons p rest ih =>
    simp only [List.any_cons, Bool.or_eq_false_iff] at hany
    have hp : ¬p.1 = k := by simpa using hany.1
    by_cases hpk : p.1 = k'
    · have hk : ¬k' = k := fun h => hp (hpk.trans h)
      simp [assocLookup, hpk, hk]
    · simp only [List.cons_append, assocLookup, if_neg hpk]
      exact ih hany.2

/-- Lookup after a JS `Map.set`: the set key maps to the new value, other
keys are unchanged. -/
theorem assocLookup_mapSet (m : List ((ElemType × Int) × OverpassElement))
    (k k' : ElemType × Int) (v : OverpassElement) :
    assocLookup (mapSet m k v) k' = if k' = k then some v else assocLookup m k' := by
  unfold mapSet
  by_cases hany : m.any (fun p => p.1 = k) = true
  · simp only [hany, if_true]
    exact assocLookup_update m k k' v hany
  · simp only [Bool.not_eq_true] at hany
    simp only [hany, Bool.false_eq_true, if_false]
    exact assocLookup_append_single m k k' v hany

/-- Keys of the map stay duplicate-free across `mapSet`. -/
theorem keys_mapSet_nodup (m : List ((ElemType × Int) × OverpassElement))
    (k : ElemType × Int) (v : OverpassElement) (h : (m.map Prod.fst).Nodup) :
    ((mapSet m k v).map Prod.fst).Nodup := by
  unfold mapSet
  by_cases hany : m.any (fun p => p.1 = k) = true
  · simp only [hany, if_true]
    have heq : (m.map (fun p => if p.1 = k then (k, v) else p)).map Prod.fst = m.map Prod.fst := by
      rw [List.map_map]
      apply List.map_congr_left
      intro p _
      by_cases hp : p.1 = k <;> simp [hp]
    rw [heq]; exact h
  · simp only [Bool.not_eq_true] at hany
    have hany' := hany
    simp only [hany', Bool.false_eq_true, if_false, List.map_append, List.map_cons, List.map_nil]
    refine List.Nodup.append h (List.nodup_singleton k) ?_
    intro a ha hb
    simp only [List.mem_singleton] at hb
    subst hb
    obtain ⟨p, hp, hfst⟩ := List.mem_map.mp ha
    have : m.any (fun p => p.1 = a) = true :=
      List.any_of_mem hp (show decide (p.1 = a) = true by simp [hfst])
    rw [hany'] at this
    exact Bool.false_ne_true this

/-- Every map entry pairs a key with an element carrying that key. -/
theorem keyInv_mapSet (m : List ((ElemType × Int) × OverpassElement)) (e : OverpassElement)
    (h : ∀ p ∈ m, elementKey p.2 = p.1) :
    ∀ p ∈ mapSet m (elementKey e) (cloneElement e), elementKey p.2 = p.1 := by
  unfold mapSet
  by_cases hany : m.any (fun p => p.1 = elementKey e) = true
  · simp only [hany, if_true]
    intro p hp
    obtain ⟨q, hq, hf⟩ := List.mem_map.mp hp
    by_cases hqk : q.1 = elementKey e
    · rw [if_pos hqk] at hf
      rw [← hf]
      rfl
    · rw [if_neg hqk] at hf
      rw [← hf]; exact h q hq
  · simp only [Bool.not_eq_true] at hany
    simp only [hany, Bool.false_eq_true, if_false]
    intro p hp
    rcases List.mem_append.mp hp with hin | hin
    · exact h p hin
    · simp only [List.mem_singleton] at hin
      rw [hin]
      rfl

/-- `lastOcc` over a cons: a later occurrence wins over the head. -/
theorem lastOcc_cons (e : OverpassElement) (rest : List OverpassElement) (k : ElemType × Int) :
    lastOcc (e :: rest) k =
      match lastOcc rest k with
      | some e2 => some e2
      | none => if elementKey e = k then some e else none := by
  unfold lastOcc
  by_cases hek : elementKey e = k
  · rw [List.filter_cons_of_pos (by simp [hek])]
    cases hF : rest.filter (fun x => decide (elementKey x = k)) with
    | nil => simp [hF, hek]
    | cons y ys =>
      rw [List.getLast?_cons_cons]
      cases hz : (y :: ys).getLast? with
      | none => rw [List.getLast?_eq_none_iff] at hz; exact absurd hz (by simp)
      | some z => simp
  · rw [List.filter_cons_of_neg (by simp [hek])]
    cases hF : rest.filter (fun x => decide (elementKey x = k)) with
    | nil => simp [hF, hek]
    | cons y ys =>
      cases hz : (y :: ys).getLast? with
      | none => rw [List.getLast?_eq_none_iff] at hz; exact absurd hz (by simp)
      | some z => simp

/-- Lookup after inserting a run of elements: the last inserted element with
the key wins; keys untouched by the run keep their previous binding. -/
theorem assocLookup_insertElements (es : List OverpassElement) :
    ∀ (m : List ((ElemType × Int) × OverpassElement)) (k : ElemType × Int),
    assocLookup (insertElements m es) k =
      match lastOcc es k with
      | some e => some (cloneElement e)
      | none => assocLookup m k := by
  induction es with
  | nil =>
    intro m k
    simp [insertElements, lastOcc]
  | cons e rest ih =>
    intro m k
    have step : insertElements m (e :: rest) =
        insertElements (mapSet m (elementKey e) (cloneElement e)) rest := rfl
    rw [step, ih, lastOcc_cons]
    cases hrest : lastOcc rest k with
    | some e2 => rfl
    | none =>
      simp only
      rw [assocLookup_mapSet]
      by_cases hek : elementKey e = k
      · simp [hek]
      · have : ¬(k = elementKey e) := fun h => hek h.symm
        simp [this, hek]

/-- Key uniqueness is preserved by inserting a run of elements. -/
theorem keys_insertElements_nodup (es : List OverpassElement) :
    ∀ m, ((m.map Prod.fst).Nodup) → (((insertElements m es).map Prod.fst).Nodup) := by
  induction es with
  | nil => intro m h; exact h
  | cons e rest ih =>
    intro m h
    exact ih _ (keys_mapSet_nodup m (elementKey e) (cloneElement e) h)

/-- The key invariant is preserved by inserting a run of elements. -/
theorem keyInv_insertElements (es : List OverpassElement) :
    ∀ m, (∀ p ∈ m, elementKey p.2 = p.1) →
      ∀ p ∈ insertElements m es, elementKey p.2 = p.1 := by
  induction es with
  | nil => intro m h; exact h
  | cons e rest ih =>
    intro m h
    exact ih _ (keyInv_mapSet m e h)

/-- The element fold of `combineResponses` equals one insertion run over the
concatenation of all payload element lists. -/
theorem combineResponses_elements (rs : List OverpassResponse) (b : BoundingBox) :
    (combineResponses rs b).elements =
      (insertElements [] (combinedList rs)).map (fun p => p.2) := by
  have gen : ∀ (ls : List (List OverpassElement)) m,
      ls.foldl (fun acc es => insertElements acc es) m = insertElements m ls.flatten := by
    intro ls
    induction ls with
    | nil => intro m; rfl
    | cons a ls ih =>
      intro m
      have : insertElements m (a ++ ls.flatten) = insertElements (insertElements m a) ls.flatten := by
        unfold insertElements
        rw [List.foldl_append]
      simp only [List.foldl_cons, List.flatten_cons, this]
      exact ih _
  show (rs.foldl (fun m r => insertElements m r.elements) []).map (fun p => p.2) = _
  have : rs.foldl (fun m r => insertElements m r.elements) [] =
      (rs.map OverpassResponse.elements).foldl (fun acc es => insertElements acc es) [] := by
    rw [List.foldl_map]
  rw [this, gen]
  rfl

/-- With unique keys, membership determines the lookup. -/
theorem assocLookup_of_mem_nodup (m : List ((ElemType × Int) × OverpassElement))
    (hnd : (m.map Prod.fst).Nodup) (p : (ElemType × Int) × OverpassElement) (hp : p ∈ m) :
    assocLookup m p.1 = some p.2 := by
  induction m with
  | nil => simp at hp
  | cons q rest ih =>
    rcases List.mem_cons.mp hp with h | h
    · subst h
      simp [assocLookup]
    · have hq : ¬(q.1 = p.1) := by
        intro hqe
        have : p.1 ∈ rest.map Prod.fst := List.mem_map.mpr ⟨p, h, rfl⟩
        rw [List.map_cons] at hnd
        exact (List.nodup_cons.mp hnd).1 (hqe ▸ this)
      simp only [assocLookup, if_neg hq]
      exact ih (List.nodup_cons.mp (List.map_cons Prod.fst q rest ▸ hnd)).2 h

/-- A successful lookup exhibits a map entry. -/
theorem mem_of_assocLookup (m : List ((ElemType × Int) × OverpassElement))
    (k : ElemType × Int) (v : OverpassElement) (h : assocLookup m k = some v) : (k, v) ∈ m := by
  induction m with
  | nil => simp [assocLookup] at h
  | cons q rest ih =>
    by_cases hq : q.1 = k
    · simp only [assocLookup, if_pos hq] at h
      have hv : q.2 = v := by injection h
      have : (k, v) = q := Prod.ext hq.symm hv.symm
      rw [this]
      exact List.mem_cons_self q rest
    · simp only [assocLookup, if_neg hq] at h
      exact List.mem_cons_of_mem q (ih h)

/-- C2: for every payload list and bbox, the elements of
`combineResponses` carry pairwise-distinct `(kind, id)` keys, and every
returned element is exactly the last element with its key in the
concatenated input iteration order (later duplicates overwrite earlier
ones). -/
theorem C2_element_dedup_last_wins (rs : List OverpassResponse) (bbox : BoundingBox) :
    ((combineResponses rs bbox).elements.map elementKey).Nodup ∧
    ∀ e' ∈ (combineResponses rs bbox).elements,
      lastOcc (combinedList rs) (elementKey e') = some e' := by
  have helems := combineResponses_elements rs bbox
  have hinv := keyInv_insertElements (combinedList rs) [] (by intro p hp; simp at hp)
  have hnd := keys_insertElements_nodup (combinedList rs) [] (by simp)
  constructor
  · rw [helems, List.map_map]
    have : ((fun e => elementKey e) ∘ (fun p : (ElemType × Int) × OverpassElement => p.2)) =
        fun p : (ElemType × Int) × OverpassElement => elementKey p.2 := rfl
    rw [this]
    have : (insertElements [] (combinedList rs)).map (fun p => elementKey p.2) =
        (insertElements [] (combinedList rs)).map Prod.fst :=
      List.map_congr_left (fun p hp => hinv p hp)
    rw [this]
    exact hnd
  · intro e' he'
    rw [helems] at he'
    obtain ⟨p, hp, hpe⟩ := List.mem_map.mp he'
    have hl := assocLookup_of_mem_nodup _ hnd p hp
    rw [assocLookup_insertElements] at hl
    cases hocc : lastOcc (combinedList rs) p.1 with
    | none =>
      rw [hocc] at hl
      simp [assocLookup] at hl
    | some e2 =>
      rw [hocc] at hl
      simp only at hl
      have he2 : cloneElement e2 = p.2 := by injection hl
      have hkey : elementKey e' = p.1 := by
        rw [← hpe]; exact hinv p hp
      rw [hkey, hocc, ← hpe, ← he2, cloneElement_id]

/-- Witness for C2: two payloads carrying the same node id, where the second
payload's version (with different tags) is the one kept. -/
theorem C2_element_dedup_last_wins_witness :
    lastOcc
      (combinedList
        [{ elements := [{ type := .node, id := 1, lat := some 1, lon := some 1 }] },
         { elements := [{ type := .node, id := 1, lat := some 2, lon := some 2 }] }])
      (elementKey { type := .node, id := 1, lat := some 2, lon := some 2 }) =
      some { type := .node, id := 1, lat := some 2, lon := some 2 } :=
  (C2_element_dedup_last_wins
      [{ elements := [{ type := .node, id := 1, lat := some 1, lon := some 1 }] },
       { elements := [{ type := .node, id := 1, lat := some 2, lon := some 2 }] }]
      ⟨0, 0, 1, 1⟩).2
    { type := .node, id := 1, lat := some 2, lon := some 2 } (by decide)

/-- C1 counterexample: a node at latitude/longitude 5 survives
`combineResponses` against the bounding box (0,0,1,1), although the claim
says nodes outside the bbox are dropped (5 is not ≤ the box's north 1). -/
theorem C1_counterexample :
    (combineResponses [{ elements := [{ type := .node, id := 1, lat := some 5, lon := some 5 }] }]
        ⟨0, 0, 1, 1⟩).elements =
      [{ type := .node, id := 1, lat := some 5, lon := some 5 }] ∧
    ¬((5 : Rat) ≤ 1) := by
  constructor
  · rfl
  · decide

/-- C1 amended: `combineResponses` applies no bbox filter at all — the bbox
argument never affects the result, and every input element (nodes included,
whatever their coordinates) contributes its `(kind, id)` key to the output. -/
theorem C1_amended_no_bbox_filtering (rs : List OverpassResponse) (b b' : BoundingBox) :
    combineResponses rs b = combineResponses rs b' ∧
    ∀ e ∈ combinedList rs, ∃ e' ∈ (combineResponses rs b).elements,
      e'.type = e.type ∧ e'.id = e.id := by
  constructor
  · rfl
  · intro e he
    have hmemf : e ∈ (combinedList rs).filter (fun x => elementKey x = elementKey e) :=
      List.mem_filter.mpr ⟨he, by simp⟩
    have hne : (combinedList rs).filter (fun x => elementKey x = elementKey e) ≠ [] := by
      intro hnil
      rw [hnil] at hmemf
      simp at hmemf
    obtain ⟨e2, he2⟩ : ∃ e2, lastOcc (combinedList rs) (elementKey e) = some e2 := by
      unfold lastOcc
      cases hF : ((combinedList rs).filter (fun x => elementKey x = elementKey e)).getLast? with
      | none =>
        rw [List.getLast?_eq_none_iff] at hF
        exact absurd hF hne
      | some z => exact ⟨z, rfl⟩
    have he2mem : e2 ∈ (combinedList rs).filter (fun x => elementKey x = elementKey e) :=
      List.mem_of_getLast?_eq_some he2
    have hkey : elementKey e2 = elementKey e := by
      have := (List.mem_filter.mp he2mem).2
      simpa using this
    have hl : assocLookup (insertElements [] (combinedList rs)) (elementKey e) =
        some (cloneElement e2) := by
      rw [assocLookup_insertElements, he2]
    have hmem := mem_of_assocLookup _ _ _ hl
    refine ⟨cloneElement e2, ?_, ?_, ?_⟩
    · rw [combineResponses_elements]
      exact List.mem_map.mpr ⟨(elementKey e, cloneElement e2), hmem, rfl⟩
    · rw [cloneElement_id]
      exact congrArg Prod.fst hkey
    · rw [cloneElement_id]
      exact congrArg Prod.snd hkey

/-- Witness for C1 (amended): the out-of-bbox node of the counterexample
input indeed reappears in the output with its kind and id. -/
theorem C1_amended_no_bbox_filtering_witness :
    ∃ e' ∈ (combineResponses
        [{ elements := [{ type := .node, id := 1, lat := some 5, lon := some 5 }] }]
        ⟨0, 0, 1, 1⟩).elements,
      e'.type = ElemType.node ∧ e'.id = 1 :=
  (C1_amended_no_bbox_filtering
      [{ elements := [{ type := .node, id := 1, lat := some 5, lon := some 5 }] }]
      ⟨0, 0, 1, 1⟩ ⟨2, 2, 3, 3⟩).2
    { type := .node, id := 1, lat := some 5, lon := some 5 } (by decide)

/-- After `refreshState` the day boundary is current. -/
theorem refreshState_dayStart (sod : Int → Int) (now : Int) (s : UpstreamState) :
    (refreshState sod now s).dayStart = sod now := by
  simp only [refreshState]
  split_ifs <;> simp_all

/-- `refreshState` keeps the counter within a day and resets it across days. -/
theorem refreshState_requestsToday (sod : Int → Int) (now : Int) (s : UpstreamState) :
    (refreshState sod now s).requestsToday =
      if s.dayStart = sod now then s.requestsToday else 0 := by
  simp only [refreshState]
  split_ifs <;> simp_all

/-- `refreshState` does not touch `failedUntil`. -/
theorem refreshState_failedUntil (sod : Int → Int) (now : Int) (s : UpstreamState) :
    (refreshState sod now s).failedUntil = s.failedUntil := by
  simp only [refreshState]
  split_ifs <;> simp_all

/-- `markLimitReached` only touches `blockedUntil`. -/
theorem markLimitReached_requestsToday (now : Int) (s : UpstreamState) :
    (markLimitReached now s).requestsToday = s.requestsToday := by
  unfold markLimitReached; split_ifs <;> rfl

/-- `markLimitReached` only touches `blockedUntil` (day boundary part). -/
theorem markLimitReached_dayStart (now : Int) (s : UpstreamState) :
    (markLimitReached now s).dayStart = s.dayStart := by
  unfold markLimitReached; split_ifs <;> rfl

/-- Dissection of one `tryAcquire` step: the resulting state is on the
current day; the counter increments exactly on `acquired`; and an `acquired`
answer implies the (refreshed) counter was below a non-negative limit. -/
theorem tryAcquireState_step (sod : Int → Int) (dl now : Int) (s : UpstreamState) :
    (tryAcquireState sod dl now s).2.dayStart = sod now ∧
    (tryAcquireState sod dl now s).2.requestsToday =
      (if (tryAcquireState sod dl now s).1 = .acquired
        then (refreshState sod now s).requestsToday + 1
        else (refreshState sod now s).requestsToday) ∧
    ((tryAcquireState sod dl now s).1 = .acquired →
      ¬(0 ≤ dl ∧ dl ≤ ((refreshState sod now s).requestsToday : Int))) := by
  simp only [tryAcquireState]
  split_ifs with h1 h2 h3 h4 <;>
    simp_all [markLimitReached_requestsToday, markLimitReached_dayStart, refreshState_dayStart]

/-- Effect of `refreshState` on the quota block. -/
theorem refreshState_blockedUntil (sod : Int → Int) (now : Int) (s : UpstreamState) :
    (refreshState sod now s).blockedUntil =
      if 0 < s.blockedUntil ∧ s.blockedUntil ≤ now then 0 else s.blockedUntil := by
  simp only [refreshState]
  split_ifs <;> simp_all

/-- Quota-bound induction: along same-day call instants, the acquired count
plus the day-relevant part of the current counter stays within the limit. -/
theorem runAcquires_bound (sod : Int → Int) (k : Int) (hk : 0 ≤ k) (d : Int) :
    ∀ (ts : List Int) (s : UpstreamState), (∀ t ∈ ts, sod t = d) →
      ((runAcquires sod k ts s).1 : Int) +
        (if s.dayStart = d then min (s.requestsToday : Int) k else 0) ≤ k := by
  intro ts
  induction ts with
  | nil =>
    intro s _
    simp only [runAcquires, Nat.cast_zero, zero_add]
    split_ifs with h
    · exact min_le_right _ _
    · exact hk
  | cons t ts ih =>
    intro s hts
    have htd : sod t = d := hts t (List.mem_cons_self t ts)
    have hts' : ∀ u ∈ ts, sod u = d := fun u hu => hts u (List.mem_cons_of_mem t hu)
    obtain ⟨hday, hreq, hacq⟩ := tryAcquireState_step sod k t s
    have hrreq : (refreshState sod t s).requestsToday =
        if s.dayStart = d then s.requestsToday else 0 := by
      rw [refreshState_requestsToday, htd]
    have ihs := ih (tryAcquireState sod k t s).2 hts'
    rw [if_pos (by rw [hday, htd] : (tryAcquireState sod k t s).2.dayStart = d)] at ihs
    have hcount : (runAcquires sod k (t :: ts) s).1 =
        if (tryAcquireState sod k t s).1 = .acquired
          then (runAcquires sod k ts (tryAcquireState sod k t s).2).1 + 1
          else (runAcquires sod k ts (tryAcquireState sod k t s).2).1 := by
      simp only [runAcquires]
    by_cases hres : (tryAcquireState sod k t s).1 = .acquired
    · have hlt : ((refreshState sod t s).requestsToday : Int) < k := by
        have h1 := hacq hres
        push_neg at h1
        exact h1 hk
      rw [hcount, if_pos hres]
      rw [hreq, if_pos hres] at ihs
      rw [hrreq] at ihs hlt
      by_cases hsd : s.dayStart = d
      · rw [if_pos hsd]
        rw [if_pos hsd] at ihs hlt
        have hmin1 : min ((s.requestsToday + 1 : Nat) : Int) k = ((s.requestsToday + 1 : Nat) : Int) := by
          apply min_eq_left
          push_cast
          omega
        have hmin2 : min (s.requestsToday : Int) k = (s.requestsToday : Int) := by
          apply min_eq_left
          omega
        rw [hmin1] at ihs
        rw [hmin2]
        push_cast at ihs ⊢
        omega
      · rw [if_neg hsd]
        rw [if_neg hsd] at ihs hlt
        have hmin1 : min ((0 + 1 : Nat) : Int) k = 1 := by
          apply min_eq_left
          omega
        rw [hmin1] at ihs
        push_cast at ihs ⊢
        omega
    · rw [hcount, if_neg hres]
      rw [hreq, if_neg hres] at ihs
      rw [hrreq] at ihs
      by_cases hsd : s.dayStart = d
      · rw [if_pos hsd]
        rw [if_pos hsd] at ihs
        exact ihs
      · rw [if_neg hsd]
        rw [if_neg hsd] at ihs
        have : min ((0 : Nat) : Int) k = 0 := by
          apply min_eq_left
          omega
        rw [this] at ihs
        omega

/-- The acquisition that makes the counter reach the limit installs the
24-hour quota block. -/
theorem tryAcquire_reach_limit_blocks (sod : Int → Int) (k now : Int) (s : UpstreamState)
    (hk : 0 ≤ k)
    (hacq : (tryAcquireState sod k now s).1 = .acquired)
    (hreach : ((tryAcquireState sod k now s).2.requestsToday : Int) = k) :
    (tryAcquireState sod k now s).2.blockedUntil = now + blockDurationMs := by
  simp only [tryAcquireState] at hacq hreach ⊢
  split_ifs at hacq hreach ⊢ with h1 h2 h3 h4
  · simp only [markLimitReached]
    rw [if_neg (by simpa using h2)]
  · exfalso
    simp only [markLimitReached_requestsToday] at hreach
    push_cast at hreach
    rw [not_and] at h4
    have := h4 hk
    omega

/-- With a negative daily limit no operation ever installs a quota block. -/
theorem applyOp_no_block_of_neg (sod : Int → Int) (dl cooldownMs : Int) (hneg : dl < 0)
    (op : PoolOp) (s : UpstreamState) (h : s.blockedUntil = 0) :
    (applyOp sod dl cooldownMs op s).blockedUntil = 0 := by
  cases op with
  | acquire t =>
    simp only [applyOp, tryAcquireState]
    have hb : (refreshState sod t s).blockedUntil = 0 := by
      rw [refreshState_blockedUntil, h]
      simp
    split_ifs with h1 h2 h3 h4
    · exact hb
    · exact hb
    · exact absurd h3.1 (by omega)
    · exact absurd h4.1 (by omega)
    · exact hb
  | fail t => simpa [applyOp, markFailure] using h
  | success => simpa [applyOp, markSuccess] using h

/-- With a negative daily limit and a nonnegative clock, `tryAcquire` never
answers `limit` from an unblocked state. -/
theorem tryAcquire_no_limit_of_neg (sod : Int → Int) (dl now : Int) (s : UpstreamState)
    (hneg : dl < 0) (hnow : 0 ≤ now) (h : s.blockedUntil = 0) :
    (tryAcquireState sod dl now s).1 ≠ .limit := by
  simp only [tryAcquireState]
  have hb : (refreshState sod now s).blockedUntil = 0 := by
    rw [refreshState_blockedUntil, h]
    simp
  split_ifs with h1 h2 h3 h4
  · simp
  · rw [hb] at h2
    exfalso
    omega
  · exact absurd h3.1 (by omega)
  · simp
  · simp

/-- C5: with a configured `dailyLimit = k ≥ 0`, `tryAcquire` answers
`acquired` at most `k` times at call instants within one local-day window
(the counter resets when the day boundary moves); the acquisition whose
counter reaches `k` sets `blockedUntil = now + 24h`; and with
`dailyLimit < 0`, quota blocks are never installed (through any operation
sequence from the constructor state) and `tryAcquire` never answers `limit`. -/
theorem C5_daily_quota (sod : Int → Int) :
    (∀ (k : Int), 0 ≤ k → ∀ (d : Int) (ts : List Int) (s : UpstreamState),
      (∀ t ∈ ts, sod t = d) → ((runAcquires sod k ts s).1 : Int) ≤ k) ∧
    (∀ (k now : Int) (s : UpstreamState), 0 ≤ k →
      (tryAcquireState sod k now s).1 = .acquired →
      ((tryAcquireState sod k now s).2.requestsToday : Int) = k →
      (tryAcquireState sod k now s).2.blockedUntil = now + blockDurationMs) ∧
    (∀ (dl cooldownMs : Int), dl < 0 →
      (∀ (ops : List PoolOp) (s : UpstreamState), s.blockedUntil = 0 →
        (applyOps sod dl cooldownMs ops s).blockedUntil = 0) ∧
      (∀ (s : UpstreamState) (now : Int), 0 ≤ now → s.blockedUntil = 0 →
        (tryAcquireState sod dl now s).1 ≠ .limit)) := by
  refine ⟨?_, ?_, ?_⟩
  · intro k hk d ts s hts
    have hb := runAcquires_bound sod k hk d ts s hts
    have hge : (0 : Int) ≤ (if s.dayStart = d then min (s.requestsToday : Int) k else 0) := by
      split_ifs
      · exact le_min (by positivity) hk
      · exact le_refl 0
    omega
  · intro k now s hk hacq hreach
    exact tryAcquire_reach_limit_blocks sod k now s hk hacq hreach
  · intro dl cooldownMs hneg
    constructor
    · intro ops
      induction ops with
      | nil => intro s h; exact h
      | cons op rest ih =>
        intro s h
        exact ih _ (applyOp_no_block_of_neg sod dl cooldownMs hneg op s h)
    · intro s now hnow h
      exact tryAcquire_no_limit_of_neg sod dl now s hneg hnow h

/-- Witness for C5: with limit 2, three same-day acquisitions from the
constructor state yield at most two `acquired` answers. -/
theorem C5_daily_quota_witness :
    ((runAcquires (fun _ => 0) 2 [10, 20, 30] (initUpstreamState 0)).1 : Int) ≤ 2 :=
  (C5_daily_quota (fun _ => 0)).1 2 (by decide) 0 [10, 20, 30] (initUpstreamState 0)
    (by intro t _; rfl)

/-- A successful `normaliseTuple` exposes its four number matches. -/
theorem normaliseTuple_eq_some (t : List Char) (b : BoundingBox)
    (h : normaliseTuple t = some b) :
    scanNumbers t = [b.south, b.west, b.north, b.east] := by
  unfold normaliseTuple at h
  split at h
  · next s w n e heq =>
    injection h with h'
    rw [heq, ← h']
  · exact absurd h (by simp)

/-- C9 counterexample: `extractBoundingBox "(3,2,1,0)"` returns the box with
south 3 and north 1, violating the claimed invariant `south ≤ north`. -/
theorem C9_counterexample :
    extractBoundingBox "(3,2,1,0)" = some ⟨3, 2, 1, 0⟩ ∧
    ¬((3 : Rat) ≤ 1) := by
  exact ⟨by decide, by decide⟩

/-- C9 (amended): every box returned by `extractBoundingBox` consists of the
four number-regex match values of the selected fragment of the
comment-stripped query — the directive capture or one parenthesized tuple —
taken in textual order as (south, west, north, east); no ordering between
the fields is validated. -/
theorem C9_amended_box_is_parsed_numbers (q : String) (b : BoundingBox)
    (h : extractBoundingBox q = some b) :
    ∃ t : List Char,
      (findDirective (stripComments q.data) = some t ∨
        t ∈ scanTuples (stripComments q.data)) ∧
      scanNumbers t = [b.south, b.west, b.north, b.east] := by
  simp only [extractBoundingBox] at h
  rcases hd : findDirective (stripComments q.data) with _ | cap
  · simp only [hd, firstTupleBox] at h
    obtain ⟨t, ht, hnt⟩ := List.exists_of_findSome?_eq_some h
    exact ⟨t, Or.inr ht, normaliseTuple_eq_some t b hnt⟩
  · simp only [hd] at h
    rcases hn : normaliseTuple cap with _ | b0
    · simp only [hn, firstTupleBox] at h
      obtain ⟨t, ht, hnt⟩ := List.exists_of_findSome?_eq_some h
      exact ⟨t, Or.inr ht, normaliseTuple_eq_some t b hnt⟩
    · simp only [hn] at h
      injection h with h'
      exact ⟨cap, Or.inl rfl, h' ▸ normaliseTuple_eq_some cap b0 hn⟩

/-- Witness for C9 (amended): applied to the counterexample query. -/
theorem C9_amended_box_is_parsed_numbers_witness :
    ∃ t : List Char,
      (findDirective (stripComments ("(3,2,1,0)" : String).data) = some t ∨
        t ∈ scanTuples (stripComments ("(3,2,1,0)" : String).data)) ∧
      scanNumbers t = [(3 : Rat), 2, 1, 0] :=
  C9_amended_box_is_parsed_numbers "(3,2,1,0)" ⟨3, 2, 1, 0⟩ (by decide)

/-- C4 counterexample: contrary to the claimed comment stripping, a tuple
inside a `#` comment is parsed (the code removes only the `#` character),
and a tuple inside a `//` comment without a later `*` and `/` pair is parsed
(the code strips `//` only up to such a closing pair). -/
theorem C4_counterexample :
    extractBoundingBoxClaim "# (1,2,3,4)" = none ∧
    extractBoundingBox "# (1,2,3,4)" = some ⟨1, 2, 3, 4⟩ ∧
    extractBoundingBoxClaim "// (1,2,3,4)\nnode(5,6,7,8)" = some ⟨5, 6, 7, 8⟩ ∧
    extractBoundingBox "// (1,2,3,4)\nnode(5,6,7,8)" = some ⟨1, 2, 3, 4⟩ :=
  ⟨by decide, by decide, by decide, by decide⟩

/-- C4 (amended): after the source's comment stripping (block comments and
`//…*/` sequences removed, `--` line comments removed, bare `#` characters
deleted), `extractBoundingBox` returns the `[bbox:…]` directive box when its
capture holds exactly four numbers, otherwise the first parenthesized tuple
holding exactly four numbers, in order (south, west, north, east), and null
otherwise; a bare three-number `node(a,b,c)` never matches. -/
theorem C4_amended_extract_refinement :
    (∀ q : String, extractBoundingBox q = extractBoundingBoxSpec q) ∧
    extractBoundingBox "node(1,2,3);out:json;" = none := by
  constructor
  · intro q
    have hfun : (fun t => match scanNumbers t with
        | [s, w, n, e] => some (⟨s, w, n, e⟩ : BoundingBox)
        | _ => none) = normaliseTuple := rfl
    simp only [extractBoundingBox, extractBoundingBoxSpec]
    rw [hfun]
    rcases hd : findDirective (stripComments q.data) with _ | cap
    · simp [hd, firstTupleBox]
    · simp only [hd, Option.map_some]
      rcases hsn : scanNumbers cap with _ | ⟨a, _ | ⟨b2, _ | ⟨c, _ | ⟨d, _ | ⟨e, rest⟩⟩⟩⟩⟩ <;>
        simp [normaliseTuple, hsn, firstTupleBox]
  · decide

/-- C8 counterexample: on an amenity containing a double quote, the source
escapes with a backslash, not by doubling — the built query differs from the
claimed doubled-quote form. -/
theorem C8_counterexample :
    escapeAmenity "a\"b" = "a\\\"b" ∧
    escapeAmenityClaim "a\"b" = "a\"\"b" ∧
    buildTileQuery (fun _ => "0") ⟨0, 0, 0, 0⟩ "a\"b" ≠
      buildTileQueryClaim (fun _ => "0") ⟨0, 0, 0, 0⟩ "a\"b" :=
  ⟨by decide, by decide, by decide⟩

/-- C8 (amended): `buildTileQuery` escapes the amenity value by prefixing
each double quote with a backslash (`escapeAmenity`), and interpolates the
escaped value into the `["amenity"="…"]` predicate of each of the node, way
and relation clauses. -/
theorem C8_amended_backslash_escape (rn : Rat → String) (bbox : BoundingBox) (amenity : String) :
    escapeAmenity "a\"b" = "a\\\"b" ∧
    (∃ u v : String, buildTileQuery rn bbox amenity =
      u ++ ("node[\"amenity\"=\"" ++ escapeAmenity amenity ++ "\"](") ++ v) ∧
    (∃ u v : String, buildTileQuery rn bbox amenity =
      u ++ ("way[\"amenity\"=\"" ++ escapeAmenity amenity ++ "\"](") ++ v) ∧
    (∃ u v : String, buildTileQuery rn bbox amenity =
      u ++ ("relation[\"amenity\"=\"" ++ escapeAmenity amenity ++ "\"](") ++ v) := by
  refine ⟨by decide, ?_, ?_, ?_⟩
  · refine ⟨"[\n  out:json][timeout:120];\n(\n  ",
      rn bbox.south ++ "," ++ rn bbox.west ++ "," ++ rn bbox.north ++ "," ++ rn bbox.east ++ ")" ++
        ";\n  way[\"amenity\"=\"" ++ escapeAmenity amenity ++ "\"]" ++ tupleStr rn bbox ++
        ";\n  relation[\"amenity\"=\"" ++ escapeAmenity amenity ++ "\"]" ++ tupleStr rn bbox ++
        ";\n);\nout body meta;\n>;\nout skel qt;", ?_⟩
    simp only [buildTileQuery, tupleStr]
    rw [show ("[\n  out:json][timeout:120];\n(\n  node[\"amenity\"=\"" : String) =
        "[\n  out:json][timeout:120];\n(\n  " ++ "node[\"amenity\"=\"" from by decide,
      show ("\"](" : String) = "\"]" ++ "(" from by decide]
    simp only [String.append_assoc]
  · refine ⟨"[\n  out:json][timeout:120];\n(\n  node[\"amenity\"=\"" ++ escapeAmenity amenity ++
        "\"]" ++ tupleStr rn bbox ++ ";\n  ",
      rn bbox.south ++ "," ++ rn bbox.west ++ "," ++ rn bbox.north ++ "," ++ rn bbox.east ++ ")" ++
        ";\n  relation[\"amenity\"=\"" ++ escapeAmenity amenity ++ "\"]" ++ tupleStr rn bbox ++
        ";\n);\nout body meta;\n>;\nout skel qt;", ?_⟩
    simp only [buildTileQuery, tupleStr]
    rw [show (";\n  way[\"amenity\"=\"" : String) = ";\n  " ++ "way[\"amenity\"=\"" from by decide,
      show ("\"](" : String) = "\"]" ++ "(" from by decide]
    simp only [String.append_assoc]
  · refine ⟨"[\n  out:json][timeout:120];\n(\n  node[\"amenity\"=\"" ++ escapeAmenity amenity ++
        "\"]" ++ tupleStr rn bbox ++ ";\n  way[\"amenity\"=\"" ++ escapeAmenity amenity ++
        "\"]" ++ tupleStr rn bbox ++ ";\n  ",
      rn bbox.south ++ "," ++ rn bbox.west ++ "," ++ rn bbox.north ++ "," ++ rn bbox.east ++ ")" ++
        ";\n);\nout body meta;\n>;\nout skel qt;", ?_⟩
    simp only [buildTileQuery, tupleStr]
    rw [show (";\n  relation[\"amenity\"=\"" : String) =
        ";\n  " ++ "relation[\"amenity\"=\"" from by decide,
      show ("\"](" : String) = "\"]" ++ "(" from by decide]
    simp only [String.append_assoc]

/-- Appending one tile to a run expands its accumulated bounds once. -/
theorem tilesBounds_append (t0 : TileInfo) (ts0 : List TileInfo) (u : TileInfo) :
    tilesBounds t0 (ts0 ++ [u]) = expandBounds (tilesBounds t0 ts0) u.bounds := by
  unfold tilesBounds
  rw [List.foldl_append]
  rfl

/-- The accumulated bounds are the coordinate-wise union: minimum of souths
and wests, maximum of norths and easts. -/
theorem tilesBounds_coords (t : TileInfo) (ts : List TileInfo) :
    (tilesBounds t ts).south = ts.foldl (fun a u => min a u.bounds.south) t.bounds.south ∧
    (tilesBounds t ts).west = ts.foldl (fun a u => min a u.bounds.west) t.bounds.west ∧
    (tilesBounds t ts).north = ts.foldl (fun a u => max a u.bounds.north) t.bounds.north ∧
    (tilesBounds t ts).east = ts.foldl (fun a u => max a u.bounds.east) t.bounds.east := by
  unfold tilesBounds
  have gen : ∀ (ts : List TileInfo) (b : BoundingBox),
      (ts.foldl (fun b u => expandBounds b u.bounds) b).south =
        ts.foldl (fun a u => min a u.bounds.south) b.south ∧
      (ts.foldl (fun b u => expandBounds b u.bounds) b).west =
        ts.foldl (fun a u => min a u.bounds.west) b.west ∧
      (ts.foldl (fun b u => expandBounds b u.bounds) b).north =
        ts.foldl (fun a u => max a u.bounds.north) b.north ∧
      (ts.foldl (fun b u => expandBounds b u.bounds) b).east =
        ts.foldl (fun a u => max a u.bounds.east) b.east := by
    intro ts
    induction ts with
    | nil => intro b; exact ⟨rfl, rfl, rfl, rfl⟩
    | cons u us ih =>
      intro b
      simpa [expandBounds] using ih (expandBounds b u.bounds)
  exact gen ts t.bounds

/-- The groups emitted by the planner loop carry exactly the current run
followed by the remaining tiles. -/
theorem groupLoop_tiles (target : Nat) :
    ∀ (remaining curT : List TileInfo) (curB : BoundingBox) (refA : Rat),
    ((groupLoop target remaining curT curB refA).map TileFetchGroup.tiles).flatten =
      curT ++ remaining := by
  intro remaining
  induction remaining with
  | nil =>
    intro curT curB refA
    simp [groupLoop]
  | cons tile rest ih =>
    intro curT curB refA
    simp only [groupLoop]
    split_ifs with h1 h2
    · simp only [List.map_cons, List.flatten_cons, ih]
      simp
    · simp only [List.map_cons, List.flatten_cons, ih]
      simp
    · rw [ih]
      simp

/-- Every group emitted by the planner loop has a nonempty tile run whose
accumulated union is the group's bounds. -/
theorem groupLoop_bounds (target : Nat) :
    ∀ (remaining : List TileInfo) (t0 : TileInfo) (ts0 : List TileInfo) (refA : Rat),
    ∀ g ∈ groupLoop target remaining (t0 :: ts0) (tilesBounds t0 ts0) refA,
      ∃ t ts, g.tiles = t :: ts ∧ g.bounds = tilesBounds t ts := by
  intro remaining
  induction remaining with
  | nil =>
    intro t0 ts0 refA g hg
    simp only [groupLoop, List.mem_singleton] at hg
    exact ⟨t0, ts0, by rw [hg], by rw [hg]⟩
  | cons tile rest ih =>
    intro t0 ts0 refA g hg
    simp only [groupLoop] at hg
    split_ifs at hg with h1 h2
    · rcases List.mem_cons.mp hg with h | h
      · exact ⟨t0, ts0, by rw [h], by rw [h]⟩
      · exact ih tile [] (area tile.bounds) g h
    · rcases List.mem_cons.mp hg with h | h
      · exact ⟨t0, ts0, by rw [h], by rw [h]⟩
      · exact ih tile [] (area tile.bounds) g h
    · have hg' : g ∈ groupLoop target rest (t0 :: (ts0 ++ [tile]))
          (tilesBounds t0 (ts0 ++ [tile])) (max refA (area tile.bounds)) := by
        rw [tilesBounds_append]
        simpa using hg
      exact ih t0 (ts0 ++ [tile]) (max refA (area tile.bounds)) g hg'

/-- The tiles of `groupCoarseTiles` are a permutation of the input. -/
theorem groupCoarseTiles_tiles_perm (tiles : List TileInfo) (target : Nat) :
    List.Perm ((groupCoarseTiles tiles target).map TileFetchGroup.tiles).flatten tiles := by
  unfold groupCoarseTiles
  have hperm := List.perm_insertionSort hashLe tiles
  rcases hs : List.insertionSort hashLe tiles with _ | ⟨t, rest⟩
  · rw [hs] at hperm
    simpa using hperm
  · rw [hs] at hperm
    rw [groupLoop_tiles]
    simpa using hperm

/-- Every group of `groupCoarseTiles` carries its members' bounds union. -/
theorem groupCoarseTiles_bounds (tiles : List TileInfo) (target : Nat) :
    ∀ g ∈ groupCoarseTiles tiles target,
      ∃ t ts, g.tiles = t :: ts ∧ g.bounds = tilesBounds t ts := by
  unfold groupCoarseTiles
  rcases hs : List.insertionSort hashLe tiles with _ | ⟨t, rest⟩
  · intro g hg
    simp at hg
  · intro g hg
    exact groupLoop_bounds target rest t [] (area t.bounds) g hg

/-- Appending to an absent bucket key touches nothing. -/
theorem bucket_map_no_key (m : List (String × List TileInfo)) (k : String) (t : TileInfo)
    (h : m.any (fun e => e.1 = k) = false) :
    m.map (fun e => if e.1 = k then (k, e.2 ++ [t]) else e) = m := by
  induction m with
  | nil => rfl
  | cons e rest ih =>
    simp only [List.any_cons, Bool.or_eq_false_iff] at h
    have he : ¬e.1 = k := by simpa using h.1
    simp [he, ih h.2]

/-- Bucket keys stay duplicate-free across `bucketAdd`. -/
theorem bucketAdd_keys_nodup (m : List (String × List TileInfo)) (k : String) (t : TileInfo)
    (h : (m.map Prod.fst).Nodup) : ((bucketAdd m k t).map Prod.fst).Nodup := by
  unfold bucketAdd
  by_cases hany : m.any (fun e => e.1 = k) = true
  · simp only [hany, if_true]
    have heq : (m.map (fun e => if e.1 = k then (k, e.2 ++ [t]) else e)).map Prod.fst =
        m.map Prod.fst := by
      rw [List.map_map]
      apply List.map_congr_left
      intro e _
      by_cases he : e.1 = k <;> simp [he]
    rw [heq]; exact h
  · simp only [Bool.not_eq_true] at hany
    simp only [hany, Bool.false_eq_true, if_false, List.map_append, List.map_cons, List.map_nil]
    refine List.Nodup.append h (List.nodup_singleton k) ?_
    intro a ha hb
    simp only [List.mem_singleton] at hb
    subst hb
    obtain ⟨e, he, hfst⟩ := List.mem_map.mp ha
    have : m.any (fun e => e.1 = a) = true :=
      List.any_of_mem he (show decide (e.1 = a) = true by simp [hfst])
    rw [hany] at this
    exact Bool.false_ne_true this

/-- Updating an existing bucket key appends the tile to the flattened
contents, up to permutation. -/
theorem bucket_update_join_perm (k : String) (t : TileInfo) :
    ∀ (m : List (String × List TileInfo)), (m.map Prod.fst).Nodup →
      m.any (fun e => e.1 = k) = true →
      List.Perm
        ((m.map (fun e => if e.1 = k then (k, e.2 ++ [t]) else e)).map Prod.snd).flatten
        (((m.map Prod.snd).flatten) ++ [t]) := by
  intro m
  induction m with
  | nil =>
    intro _ hany
    simp at hany
  | cons e rest ih =>
    intro hnd hany
    rw [List.map_cons, List.nodup_cons] at hnd
    by_cases he : e.1 = k
    · have hrest : rest.any (fun x => x.1 = k) = false := by
        cases hh : rest.any (fun x => x.1 = k)
        · rfl
        · exfalso
          obtain ⟨x, hx, hxk⟩ := List.any_eq_true.mp hh
          exact hnd.1 (by rw [he]; exact List.mem_map.mpr ⟨x, hx, of_decide_eq_true hxk⟩)
      rw [List.map_cons, if_pos he, bucket_map_no_key rest k t hrest]
      simp only [List.map_cons, List.flatten_cons, List.append_assoc]
      exact List.Perm.append_left e.2 List.perm_append_comm
    · have hrest : rest.any (fun x => x.1 = k) = true := by
        simp only [List.any_cons, Bool.or_eq_true] at hany
        rcases hany with h | h
        · exact absurd (of_decide_eq_true h) he
        · exact h
      rw [List.map_cons, if_neg he]
      simp only [List.map_cons, List.flatten_cons, List.append_assoc]
      exact List.Perm.append_left e.2 (ih hnd.2 hrest)

/-- `bucketAdd` appends the tile to the flattened bucket contents, up to
permutation (the tile lands at the end of its own bucket). -/
theorem bucketAdd_join_perm (m : List (String × List TileInfo)) (k : String) (t : TileInfo)
    (hnd : (m.map Prod.fst).Nodup) :
    List.Perm ((bucketAdd m k t).map Prod.snd).flatten (((m.map Prod.snd).flatten) ++ [t]) := by
  unfold bucketAdd
  by_cases hany : m.any (fun e => e.1 = k) = true
  · simp only [hany, if_true]
    exact bucket_update_join_perm k t m hnd hany
  · simp only [Bool.not_eq_true] at hany
    simp only [hany, Bool.false_eq_true, if_false, List.map_append, List.map_cons, List.map_nil]
    simp

/-- Folding `bucketAdd` over tiles appends them (as a multiset) to the
flattened bucket contents. -/
theorem bucketFold_join_perm (coarse : Nat) (tiles : List TileInfo) :
    ∀ (m : List (String × List TileInfo)), (m.map Prod.fst).Nodup →
      List.Perm ((tiles.foldl (fun m t => bucketAdd m (t.hash.take coarse) t) m).map Prod.snd).flatten
        (((m.map Prod.snd).flatten) ++ tiles) := by
  induction tiles with
  | nil =>
    intro m _
    simp
  | cons t ts ih =>
    intro m hnd
    simp only [List.foldl_cons]
    have h1 := ih (bucketAdd m (t.hash.take coarse) t)
      (bucketAdd_keys_nodup m (t.hash.take coarse) t hnd)
    have h2 := bucketAdd_join_perm m (t.hash.take coarse) t hnd
    refine h1.trans ?_
    refine (List.Perm.append_right ts h2).trans ?_
    simp

/-- The flattened contents of `byCoarse` are a permutation of the input. -/
theorem byCoarse_join_perm (coarse : Nat) (tiles : List TileInfo) :
    List.Perm (((byCoarse coarse tiles).map Prod.snd).flatten) tiles := by
  have := bucketFold_join_perm coarse tiles [] (by simp)
  simpa [byCoarse] using this

/-- Over every coarse bucket, the planner's groups keep exactly the bucket
contents. -/
theorem buckets_groups_perm (desired : Nat) :
    ∀ (bs : List (String × List TileInfo)),
    List.Perm
      ((((bs.map (fun b => if b.2.length = 0 then [] else groupCoarseTiles b.2 desired)).flatten).map
          TileFetchGroup.tiles).flatten)
      ((bs.map Prod.snd).flatten) := by
  intro bs
  induction bs with
  | nil => simp
  | cons b rest ih =>
    simp only [List.map_cons, List.flatten_cons, List.map_append, List.flatten_append]
    refine List.Perm.append ?_ ih
    by_cases hb : b.2.length = 0
    · have hnil : b.2 = [] := List.length_eq_zero.mp hb
      simp [hb, hnil]
    · rw [if_neg hb]
      exact groupCoarseTiles_tiles_perm b.2 desired

/-- Every group produced over the buckets satisfies the bounds-union
characterization. -/
theorem buckets_groups_bounds (desired : Nat) (bs : List (String × List TileInfo)) :
    ∀ g ∈ ((bs.map (fun b => if b.2.length = 0 then [] else groupCoarseTiles b.2 desired)).flatten),
      ∃ t ts, g.tiles = t :: ts ∧ g.bounds = tilesBounds t ts := by
  intro g hg
  rw [List.mem_flatten] at hg
  obtain ⟨s, hs, hgs⟩ := hg
  rw [List.mem_map] at hs
  obtain ⟨b, _, rfl⟩ := hs
  by_cases hb : b.2.length = 0
  · rw [if_pos hb] at hgs
    simp at hgs
  · rw [if_neg hb] at hgs
    exact groupCoarseTiles_bounds b.2 desired g hgs

/-- C7: for a non-empty tile list, `planTileFetches` returns groups whose
tiles form a permutation of the input (each input tile lies in exactly one
group), whose bounds are the coordinate-wise union (minimum south/west,
maximum north/east) of their members' bounds, and which are sorted ascending
by (south, west, north, east). -/
theorem C7_plan_partition_bounds_sorted (tiles : List TileInfo) (options : PlanOptions)
    (hne : tiles ≠ []) :
    List.Perm (((planTileFetches tiles options).map TileFetchGroup.tiles).flatten) tiles ∧
    (∀ g ∈ planTileFetches tiles options, ∃ t ts, g.tiles = t :: ts ∧
      g.bounds.south = ts.foldl (fun a u => min a u.bounds.south) t.bounds.south ∧
      g.bounds.west = ts.foldl (fun a u => min a u.bounds.west) t.bounds.west ∧
      g.bounds.north = ts.foldl (fun a u => max a u.bounds.north) t.bounds.north ∧
      g.bounds.east = ts.foldl (fun a u => max a u.bounds.east) t.bounds.east) ∧
    List.Sorted groupLE (planTileFetches tiles options) := by
  have hlen : ¬(tiles.length = 0) := by simpa using hne
  refine ⟨?_, ?_, ?_⟩
  · simp only [planTileFetches, if_neg hlen, sortGroups]
    refine (((List.perm_insertionSort groupLE _).map TileFetchGroup.tiles).flatten).trans ?_
    exact (buckets_groups_perm _ (byCoarse options.coarsePrecision tiles)).trans
      (byCoarse_join_perm options.coarsePrecision tiles)
  · intro g hg
    simp only [planTileFetches, if_neg hlen, sortGroups] at hg
    rw [List.mem_insertionSort] at hg
    obtain ⟨t, ts, h1, h2⟩ := buckets_groups_bounds _ _ g hg
    obtain ⟨c1, c2, c3, c4⟩ := tilesBounds_coords t ts
    exact ⟨t, ts, h1, by rw [h2]; exact c1, by rw [h2]; exact c2,
      by rw [h2]; exact c3, by rw [h2]; exact c4⟩
  · simp only [planTileFetches, if_neg hlen, sortGroups]
    exact List.sorted_insertionSort groupLE _

/-- Witness for C7: the two-tile plan over distinct coarse prefixes keeps
both tiles. -/
theorem C7_plan_partition_bounds_sorted_witness :
    List.Perm
      (((planTileFetches [⟨"aa", ⟨0, 0, 1, 1⟩⟩, ⟨"ab", ⟨1, 0, 2, 1⟩⟩]
            ⟨1, 2, none⟩).map TileFetchGroup.tiles).flatten)
      [⟨"aa", ⟨0, 0, 1, 1⟩⟩, ⟨"ab", ⟨1, 0, 2, 1⟩⟩] :=
  (C7_plan_partition_bounds_sorted [⟨"aa", ⟨0, 0, 1, 1⟩⟩, ⟨"ab", ⟨1, 0, 2, 1⟩⟩]
    ⟨1, 2, none⟩ (by decide)).1

/-- `markLimitReached` does not touch `failedUntil`. -/
theorem markLimitReached_failedUntil (now : Int) (s : UpstreamState) :
    (markLimitReached now s).failedUntil = s.failedUntil := by
  unfold markLimitReached; split_ifs <;> rfl

/-- `tryAcquireState` never touches `failedUntil`. -/
theorem tryAcquireState_failedUntil (sod : Int → Int) (dl now : Int) (s : UpstreamState) :
    (tryAcquireState sod dl now s).2.failedUntil = s.failedUntil := by
  simp only [tryAcquireState]
  split_ifs <;>
    simp [markLimitReached_failedUntil, refreshState_failedUntil]

/-- Same-day refresh keeps the counter. -/
theorem refreshState_requestsToday_same (sod : Int → Int) (now : Int) (s : UpstreamState)
    (h : s.dayStart = sod now) :
    (refreshState sod now s).requestsToday = s.requestsToday := by
  rw [refreshState_requestsToday, if_pos h]

/-- Lookup after an in-place pool update. -/
theorem poolLookup_update (p : Pool) (url : String) (s : UpstreamState) (u : String) :
    poolLookup (poolUpdate p url s) u =
      if u = url then (poolLookup p url).map (fun _ => s) else poolLookup p u := by
  induction p with
  | nil => simp [poolLookup, poolUpdate]
  | cons e rest ih =>
    simp only [poolUpdate] at ih ⊢
    by_cases he : e.1 = url
    · by_cases hu : u = url
      · subst hu
        simp [poolLookup, he]
      · simp only [List.map_cons, if_pos he, poolLookup,
          if_neg (fun h : url = u => hu h.symm), if_neg hu]
        rw [ih]
        simp only [hu, if_false]
        rw [if_neg (show ¬(e.1 = u) from fun h => hu (he ▸ h).symm)]
    · by_cases hu : e.1 = u
      · have : ¬(u = url) := fun h => he (hu.trans h)
        simp [poolLookup, List.map_cons, if_neg he, hu, this]
      · simp only [List.map_cons, if_neg he, poolLookup, if_neg hu]
        exact ih

/-- Keys survive an in-place pool update. -/
theorem poolUpdate_keys (p : Pool) (url : String) (s : UpstreamState) :
    (poolUpdate p url s).map Prod.fst = p.map Prod.fst := by
  induction p with
  | nil => rfl
  | cons e rest ih =>
    simp only [poolUpdate] at ih ⊢
    by_cases he : e.1 = url <;> simp [he, ih]

/-- A successful lookup exhibits a pool entry. -/
theorem mem_of_poolLookup (p : Pool) (u : String) (s : UpstreamState)
    (h : poolLookup p u = some s) : (u, s) ∈ p := by
  induction p with
  | nil => simp [poolLookup] at h
  | cons e rest ih =>
    by_cases he : e.1 = u
    · simp only [poolLookup, if_pos he] at h
      injection h with h'
      have : (u, s) = e := by
        rw [← he, ← h']
      rw [this]
      exact List.mem_cons_self e rest
    · simp only [poolLookup, if_neg he] at h
      exact List.mem_cons_of_mem e (ih h)

/-- The `next` scan keeps the key list, day boundaries, `failedUntil` and
(same-day) `requestsToday` of every entry. -/
theorem nextScan_facts (sod : Int → Int) (dl now : Int) (excl : List String) :
    ∀ (p : Pool), (∀ e ∈ p, e.2.dayStart = sod now) →
      ((nextScan sod dl now excl p).1.map Prod.fst = p.map Prod.fst) ∧
      (∀ x ∈ (nextScan sod dl now excl p).1, x.2.dayStart = sod now) ∧
      (∀ u, (poolLookup (nextScan sod dl now excl p).1 u).map (fun s => s.failedUntil) =
        (poolLookup p u).map (fun s => s.failedUntil)) ∧
      (∀ u, (poolLookup (nextScan sod dl now excl p).1 u).map (fun s => s.requestsToday) =
        (poolLookup p u).map (fun s => s.requestsToday)) := by
  intro p
  induction p with
  | nil =>
    intro _
    exact ⟨rfl, by simp [nextScan], fun u => rfl, fun u => rfl⟩
  | cons e rest ih =>
    intro hday
    have hde : e.2.dayStart = sod now := hday e (List.mem_cons_self e rest)
    have hdr : ∀ x ∈ rest, x.2.dayStart = sod now := fun x hx => hday x (List.mem_cons_of_mem e hx)
    obtain ⟨ih1, ih2, ih3, ih4⟩ := ih hdr
    have hfF : (refreshState sod now e.2).failedUntil = e.2.failedUntil :=
      refreshState_failedUntil sod now e.2
    have hfR : (refreshState sod now e.2).requestsToday = e.2.requestsToday :=
      refreshState_requestsToday_same sod now e.2 hde
    have hfD : (refreshState sod now e.2).dayStart = sod now := refreshState_dayStart sod now e.2
    have hmF : (markLimitReached now (refreshState sod now e.2)).failedUntil = e.2.failedUntil := by
      rw [markLimitReached_failedUntil, hfF]
    have hmR : (markLimitReached now (refreshState sod now e.2)).requestsToday =
        e.2.requestsToday := by
      rw [markLimitReached_requestsToday, hfR]
    have hmD : (markLimitReached now (refreshState sod now e.2)).dayStart = sod now := by
      rw [markLimitReached_dayStart, hfD]
    have main : ∀ hs : UpstreamState, hs.failedUntil = e.2.failedUntil →
        hs.requestsToday = e.2.requestsToday → hs.dayStart = sod now →
        (((e.1, hs) :: (nextScan sod dl now excl rest).1).map Prod.fst = (e :: rest).map Prod.fst) ∧
        (∀ x ∈ (e.1, hs) :: (nextScan sod dl now excl rest).1, x.2.dayStart = sod now) ∧
        (∀ u, (poolLookup ((e.1, hs) :: (nextScan sod dl now excl rest).1) u).map
            (fun s => s.failedUntil) =
          (poolLookup (e :: rest) u).map (fun s => s.failedUntil)) ∧
        (∀ u, (poolLookup ((e.1, hs) :: (nextScan sod dl now excl rest).1) u).map
            (fun s => s.requestsToday) =
          (poolLookup (e :: rest) u).map (fun s => s.requestsToday)) := by
      intro hs hF hR hD
      refine ⟨by simp [ih1], ?_, ?_, ?_⟩
      · intro x hx
        rcases List.mem_cons.mp hx with h | h
        · rw [h]; exact hD
        · exact ih2 x h
      · intro u
        simp only [poolLookup]
        by_cases hu : e.1 = u
        · simp [hu, hF]
        · simp only [if_neg hu]
          exact ih3 u
      · intro u
        simp only [poolLookup]
        by_cases hu : e.1 = u
        · simp [hu, hR]
        · simp only [if_neg hu]
          exact ih4 u
    simp only [nextScan]
    split_ifs with h1 h2 h3 h4
    · exact main _ hfF hfR hfD
    · exact main _ hfF hfR hfD
    · exact main _ hfF hfR hfD
    · exact main _ hmF hmR hmD
    · exact main _ hfF hfR hfD

/-- Available URLs come from the pool and are not excluded. -/
theorem nextScan_avail (sod : Int → Int) (dl now : Int) (excl : List String) :
    ∀ (p : Pool), ∀ u ∈ (nextScan sod dl now excl p).2,
      excl.contains u = false ∧ u ∈ p.map Prod.fst := by
  intro p
  induction p with
  | nil =>
    intro u hu
    simp [nextScan] at hu
  | cons e rest ih =>
    intro u hu
    simp only [nextScan] at hu
    split_ifs at hu with h1 h2 h3 h4
    · obtain ⟨h5, h6⟩ := ih u hu
      exact ⟨h5, List.mem_cons_of_mem _ h6⟩
    · obtain ⟨h5, h6⟩ := ih u hu
      exact ⟨h5, List.mem_cons_of_mem _ h6⟩
    · obtain ⟨h5, h6⟩ := ih u hu
      exact ⟨h5, List.mem_cons_of_mem _ h6⟩
    · obtain ⟨h5, h6⟩ := ih u hu
      exact ⟨h5, List.mem_cons_of_mem _ h6⟩
    · rcases List.mem_cons.mp hu with h | h
      · subst h
        refine ⟨by simpa using h1, by simp⟩
      · obtain ⟨h5, h6⟩ := ih u h
        exact ⟨h5, List.mem_cons_of_mem _ h6⟩

/-- A key present in the pool has a state. -/
theorem poolLookup_isSome (p : Pool) (u : String) (h : u ∈ p.map Prod.fst) :
    ∃ s, poolLookup p u = some s := by
  induction p with
  | nil => simp at h
  | cons e rest ih =>
    by_cases he : e.1 = u
    · exact ⟨e.2, by simp [poolLookup, he]⟩
    · simp only [List.map_cons, List.mem_cons] at h
      rcases h with h | h
      · exact absurd h.symm he
      · obtain ⟨s, hs⟩ := ih h
        exact ⟨s, by simp [poolLookup, he, hs]⟩

/-- Pointwise effect of pool-level `tryAcquire` on states. -/
theorem tryAcquirePool_lookup (sod : Int → Int) (dl now : Int) (p : Pool) (url u : String) :
    poolLookup (tryAcquirePool sod dl now p url).2 u =
      if u = url then (poolLookup p url).map (fun s => (tryAcquireState sod dl now s).2)
      else poolLookup p u := by
  simp only [tryAcquirePool]
  cases h : poolLookup p url with
  | none =>
    by_cases hu : u = url
    · simp [hu, h]
    · simp [hu]
  | some s =>
    simp only [poolLookup_update, h]
    by_cases hu : u = url <;> simp [hu]

/-- An `acquired` answer at pool level comes from a present state whose
`tryAcquire` answered `acquired`. -/
theorem tryAcquirePool_acquired (sod : Int → Int) (dl now : Int) (p : Pool) (url : String)
    (h : (tryAcquirePool sod dl now p url).1 = .acquired) :
    ∃ s, poolLookup p url = some s ∧ (tryAcquireState sod dl now s).1 = .acquired := by
  simp only [tryAcquirePool] at h
  cases hl : poolLookup p url with
  | none => rw [hl] at h; exact absurd h (by simp)
  | some s => rw [hl] at h; exact ⟨s, rfl, h⟩

/-- Pool-level `tryAcquire` keeps the key list. -/
theorem tryAcquirePool_keys (sod : Int → Int) (dl now : Int) (p : Pool) (url : String) :
    (tryAcquirePool sod dl now p url).2.map Prod.fst = p.map Prod.fst := by
  simp only [tryAcquirePool]
  cases poolLookup p url with
  | none => rfl
  | some s => exact poolUpdate_keys p url _

/-- Updating with a state satisfying an entry predicate preserves it. -/
theorem poolUpdate_pred (P : UpstreamState → Prop) (p : Pool) (url : String) (s : UpstreamState)
    (hp : ∀ e ∈ p, P e.2) (hs : P s) : ∀ e ∈ poolUpdate p url s, P e.2 := by
  intro e he
  simp only [poolUpdate, List.mem_map] at he
  obtain ⟨x, hx, hxe⟩ := he
  by_cases hk : x.1 = url
  · rw [if_pos hk] at hxe
    rw [← hxe]
    exact hs
  · rw [if_neg hk] at hxe
    rw [← hxe]
    exact hp x hx

/-- `markFailure` installs the cooldown value and touches nothing else. -/
theorem markFailure_fields (cooldownMs now : Int) (s : UpstreamState) :
    (markFailure cooldownMs now s).failedUntil = failValue cooldownMs now ∧
    (markFailure cooldownMs now s).requestsToday = s.requestsToday ∧
    (markFailure cooldownMs now s).dayStart = s.dayStart := by
  exact ⟨rfl, rfl, rfl⟩

/-- Pointwise effect of pool-level `markFailure`. -/
theorem poolMarkFailure_lookup (cooldownMs now : Int) (p : Pool) (url u : String) :
    poolLookup (poolMarkFailure cooldownMs now p url) u =
      if u = url then (poolLookup p url).map (markFailure cooldownMs now)
      else poolLookup p u := by
  simp only [poolMarkFailure]
  cases h : poolLookup p url with
  | none =>
    by_cases hu : u = url
    · simp [hu, h]
    · simp [hu]
  | some s =>
    simp only [poolLookup_update, h]
    by_cases hu : u = url <;> simp [hu]

/-- Pointwise effect of pool-level `markSuccess`. -/
theorem poolMarkSuccess_lookup (p : Pool) (url u : String) :
    poolLookup (poolMarkSuccess p url) u =
      if u = url then (poolLookup p url).map markSuccess
      else poolLookup p u := by
  simp only [poolMarkSuccess]
  cases h : poolLookup p url with
  | none =>
    by_cases hu : u = url
    · simp [hu, h]
    · simp [hu]
  | some s =>
    simp only [poolLookup_update, h]
    by_cases hu : u = url <;> simp [hu]

/-- Pool-level `markFailure` keeps the key list. -/
theorem poolMarkFailure_keys (cooldownMs now : Int) (p : Pool) (url : String) :
    (poolMarkFailure cooldownMs now p url).map Prod.fst = p.map Prod.fst := by
  simp only [poolMarkFailure]
  cases poolLookup p url with
  | none => rfl
  | some s => exact poolUpdate_keys p url _

/-- Pool-level `markSuccess` keeps the key list. -/
theorem poolMarkSuccess_keys (p : Pool) (url : String) :
    (poolMarkSuccess p url).map Prod.fst = p.map Prod.fst := by
  simp only [poolMarkSuccess]
  cases poolLookup p url with
  | none => rfl
  | some s => exact poolUpdate_keys p url _

/-- `tryAcquire` keeps every entry on the current day. -/
theorem tryAcquirePool_day (sod : Int → Int) (dl now : Int) (p : Pool) (url : String)
    (hday : ∀ e ∈ p, e.2.dayStart = sod now) :
    ∀ e ∈ (tryAcquirePool sod dl now p url).2, e.2.dayStart = sod now := by
  simp only [tryAcquirePool]
  cases h : poolLookup p url with
  | none => exact hday
  | some s =>
    exact poolUpdate_pred (fun st => st.dayStart = sod now) p url _ hday
      (tryAcquireState_step sod dl now s).1

/-- `markFailure` keeps every entry on the current day. -/
theorem poolMarkFailure_day (sod : Int → Int) (cooldownMs now : Int) (p : Pool) (url : String)
    (hday : ∀ e ∈ p, e.2.dayStart = sod now) :
    ∀ e ∈ poolMarkFailure cooldownMs now p url, e.2.dayStart = sod now := by
  simp only [poolMarkFailure]
  cases h : poolLookup p url with
  | none => exact hday
  | some s =>
    refine poolUpdate_pred (fun st => st.dayStart = sod now) p url _ hday ?_
    have := hday (url, s) (mem_of_poolLookup p url s h)
    simpa [markFailure] using this

/-- `markSuccess` keeps every entry on the current day. -/
theorem poolMarkSuccess_day (sod : Int → Int) (now : Int) (p : Pool) (url : String)
    (hday : ∀ e ∈ p, e.2.dayStart = sod now) :
    ∀ e ∈ poolMarkSuccess p url, e.2.dayStart = sod now := by
  simp only [poolMarkSuccess]
  cases h : poolLookup p url with
  | none => exact hday
  | some s =>
    refine poolUpdate_pred (fun st => st.dayStart = sod now) p url _ hday ?_
    have := hday (url, s) (mem_of_poolLookup p url s h)
    simpa [markSuccess] using this

/-- The `isExhaustedByLimit` scan keeps the key list, day boundaries,
`failedUntil` and (same-day) `requestsToday` of every entry. -/
theorem exhaustScan_facts (sod : Int → Int) (dl now : Int) :
    ∀ (p : Pool), (∀ e ∈ p, e.2.dayStart = sod now) →
      ((exhaustScan sod dl now p).1.map Prod.fst = p.map Prod.fst) ∧
      (∀ x ∈ (exhaustScan sod dl now p).1, x.2.dayStart = sod now) ∧
      (∀ u, (poolLookup (exhaustScan sod dl now p).1 u).map (fun s => s.failedUntil) =
        (poolLookup p u).map (fun s => s.failedUntil)) ∧
      (∀ u, (poolLookup (exhaustScan sod dl now p).1 u).map (fun s => s.requestsToday) =
        (poolLookup p u).map (fun s => s.requestsToday)) := by
  intro p
  induction p with
  | nil =>
    intro _
    exact ⟨rfl, by simp [exhaustScan], fun u => rfl, fun u => rfl⟩
  | cons e rest ih =>
    intro hday
    have hde : e.2.dayStart = sod now := hday e (List.mem_cons_self e rest)
    have hdr : ∀ x ∈ rest, x.2.dayStart = sod now := fun x hx => hday x (List.mem_cons_of_mem e hx)
    obtain ⟨ih1, ih2, ih3, ih4⟩ := ih hdr
    have hfF : (refreshState sod now e.2).failedUntil = e.2.failedUntil :=
      refreshState_failedUntil sod now e.2
    have hfR : (refreshState sod now e.2).requestsToday = e.2.requestsToday :=
      refreshState_requestsToday_same sod now e.2 hde
    have hfD : (refreshState sod now e.2).dayStart = sod now := refreshState_dayStart sod now e.2
    simp only [exhaustScan]
    split_ifs with h1
    · refine ⟨by simp, ?_, ?_, ?_⟩
      · intro x hx
        rcases List.mem_cons.mp hx with h | h
        · rw [h]; exact hfD
        · exact hdr x h
      · intro u
        simp only [poolLookup]
        by_cases hu : e.1 = u
        · simp [hu, hfF]
        · simp [if_neg hu]
      · intro u
        simp only [poolLookup]
        by_cases hu : e.1 = u
        · simp [hu, hfR]
        · simp [if_neg hu]
    · refine ⟨by simp [ih1], ?_, ?_, ?_⟩
      · intro x hx
        rcases List.mem_cons.mp hx with h | h
        · rw [h]; exact hfD
        · exact ih2 x h
      · intro u
        simp only [poolLookup]
        by_cases hu : e.1 = u
        · simp [hu, hfF]
        · simp only [if_neg hu]
          exact ih3 u
      · intro u
        simp only [poolLookup]
        by_cases hu : e.1 = u
        · simp [hu, hfR]
        · simp only [if_neg hu]
          exact ih4 u

/-- Pool preservation through `isExhaustedByLimit`. -/
theorem isExhaustedByLimit_facts (sod : Int → Int) (dl now : Int) (p : Pool)
    (hday : ∀ e ∈ p, e.2.dayStart = sod now) :
    ((isExhaustedByLimit sod dl now p).1.map Prod.fst = p.map Prod.fst) ∧
    (∀ x ∈ (isExhaustedByLimit sod dl now p).1, x.2.dayStart = sod now) ∧
    (∀ u, (poolLookup (isExhaustedByLimit sod dl now p).1 u).map (fun s => s.failedUntil) =
      (poolLookup p u).map (fun s => s.failedUntil)) ∧
    (∀ u, (poolLookup (isExhaustedByLimit sod dl now p).1 u).map (fun s => s.requestsToday) =
      (poolLookup p u).map (fun s => s.requestsToday)) := by
  simp only [isExhaustedByLimit]
  split_ifs with h1
  · exact ⟨rfl, hday, fun u => rfl, fun u => rfl⟩
  · exact exhaustScan_facts sod dl now p hday

/-- Behaviour of the loop epilogue: the trace is unchanged, entries keep
their fields, and the error raised is the synthesized limit error, the
recorded last error, or the fallback. -/
theorem runFinish_facts {α : Type} (sod : Int → Int) (dl now : Int) (p : Pool)
    (lastErr : Option UErr) (tr : List UpEvent)
    (hday : ∀ e ∈ p, e.2.dayStart = sod now) :
    ((runFinish sod dl now p lastErr tr : Except UErr α × Pool × List UpEvent).2.2 = tr) ∧
    (∀ u, (poolLookup (runFinish sod dl now p lastErr tr :
        Except UErr α × Pool × List UpEvent).2.1 u).map (fun s => s.failedUntil) =
      (poolLookup p u).map (fun s => s.failedUntil)) ∧
    (∀ u, (poolLookup (runFinish sod dl now p lastErr tr :
        Except UErr α × Pool × List UpEvent).2.1 u).map (fun s => s.requestsToday) =
      (poolLookup p u).map (fun s => s.requestsToday)) ∧
    (∀ v, (runFinish sod dl now p lastErr tr :
        Except UErr α × Pool × List UpEvent).1 ≠ .ok v) ∧
    (∀ e, (runFinish sod dl now p lastErr tr :
        Except UErr α × Pool × List UpEvent).1 = .error e →
      e = allLimitsErr ∨ lastErr = some e ∨ (lastErr = none ∧ e = noUrlsErr)) := by
  obtain ⟨hx1, hx2, hx3, hx4⟩ := isExhaustedByLimit_facts sod dl now p hday
  simp only [runFinish]
  split_ifs with h1
  · exact ⟨rfl, hx3, hx4, fun v => by simp, fun e he => Or.inl (by injection he with h; exact h.symm)⟩
  · cases hl : lastErr with
    | none =>
      exact ⟨rfl, hx3, hx4, fun v => by simp,
        fun e he => Or.inr (Or.inr ⟨rfl, by injection he with h; exact h.symm⟩)⟩
    | some e0 =>
      exact ⟨rfl, hx3, hx4, fun v => by simp,
        fun e he => Or.inr (Or.inl (by injection he with h; rw [h]))⟩

/-- `lastError` after one more event. -/
theorem tracedLastError_append (tr : List UpEvent) (ev : UpEvent) :
    tracedLastError (tr ++ [ev]) =
      match eventError ev with | some e => some e | none => tracedLastError tr := by
  simp only [tracedLastError]
  rw [List.foldl_append]
  rfl

/-- An fn-call event names its URL. -/
theorem isFnEvent_false_of_ne (u : String) (ev : UpEvent) (h : eventUrl ev ≠ u) :
    isFnEvent u ev = false := by
  cases ev <;> simp_all [isFnEvent, eventUrl]

/-- Unrolling of the fn-call counter. -/
theorem fnEventCount_cons (ev : UpEvent) (l : List UpEvent) (u : String) :
    fnEventCount (ev :: l) u = (if isFnEvent u ev then 1 else 0) + fnEventCount l u := by
  simp only [fnEventCount, List.filter_cons]
  split_ifs <;> simp [Nat.add_comm]

/-- A trace that never names a URL records no fn calls on it. -/
theorem fnEventCount_zero (l : List UpEvent) (u : String) (h : ∀ ev ∈ l, eventUrl ev ≠ u) :
    fnEventCount l u = 0 := by
  induction l with
  | nil => rfl
  | cons ev rest ih =>
    have h0 : ¬(false = true) := by simp
    rw [fnEventCount_cons, isFnEvent_false_of_ne u ev (h ev (List.mem_cons_self ev rest)),
      if_neg h0, Nat.zero_add]
    exact ih (fun x hx => h x (List.mem_cons_of_mem ev hx))

/-- Random draw from a nonempty candidate list stays in the list. -/
theorem getD_mod_mem (l : List String) (i : Nat) (h : l ≠ []) : l.getD (i % l.length) "" ∈ l := by
  have hlen : 0 < l.length := List.length_pos.mpr h
  have hlt : i % l.length < l.length := Nat.mod_lt _ hlen
  rw [List.getD_eq_getElem l "" hlt]
  exact List.getElem_mem hlt

/-- Prepending keeps a known last element. -/
theorem getLast?_cons_of_some {l : List UpEvent} {x y : UpEvent} (h : l.getLast? = some y) :
    (x :: l).getLast? = some y := by
  cases l with
  | nil => simp at h
  | cons a as => rw [List.getLast?_cons_cons]; exact h

/-- Shifting a mapped field preserves pointwise equality of lookups. -/
theorem map_field_trans (oa ob : Option UpstreamState) (f : UpstreamState → Nat) (c : Nat)
    (h : oa.map f = ob.map f) :
    oa.map (fun s => f s + c) = ob.map (fun s => f s + c) := by
  cases oa <;> cases ob <;> simp_all

/-- The pool position of the URL chosen by `next`, and its freshness. -/
theorem nextUrl_pool (sod : Int → Int) (dl now : Int) (p : Pool) (excl : List String) (r : Nat) :
    (nextUrl sod dl now p excl r).2 = (nextScan sod dl now excl p).1 := by
  simp only [nextUrl]
  cases (nextScan sod dl now excl p).2 <;> rfl

/-- A URL answered by `next` is a non-excluded pool key. -/
theorem nextUrl_mem (sod : Int → Int) (dl now : Int) (p : Pool) (excl : List String) (r : Nat)
    (url : String) (h : (nextUrl sod dl now p excl r).1 = some url) :
    excl.contains url = false ∧ url ∈ p.map Prod.fst := by
  simp only [nextUrl] at h
  cases hs : (nextScan sod dl now excl p).2 with
  | nil => rw [hs] at h; simp at h
  | cons a as =>
    rw [hs] at h
    injection h with h
    have hm : url ∈ (nextScan sod dl now excl p).2 := by
      rw [hs, ← h]
      exact getD_mod_mem (a :: as) r (by simp)
    exact nextScan_avail sod dl now excl p url hm

/-- Per-URL effect of pool-level `tryAcquire` on the daily counter. -/
theorem tryAcquirePool_req (sod : Int → Int) (dl now : Int) (p : Pool) (url : String)
    (hday : ∀ e ∈ p, e.2.dayStart = sod now) :
    ∀ u, (poolLookup (tryAcquirePool sod dl now p url).2 u).map (fun s => s.requestsToday) =
      (poolLookup p u).map (fun s =>
        if u = url ∧ (tryAcquirePool sod dl now p url).1 = .acquired
        then s.requestsToday + 1 else s.requestsToday) := by
  intro u
  rw [tryAcquirePool_lookup]
  by_cases hu : u = url
  · rw [if_pos hu, hu]
    cases hl : poolLookup p url with
    | none => simp
    | some s =>
      have hmem := mem_of_poolLookup p url s hl
      have hdayS : s.dayStart = sod now := hday (url, s) hmem
      have hres : (tryAcquirePool sod dl now p url).1 = (tryAcquireState sod dl now s).1 := by
        simp [tryAcquirePool, hl]
      have hstep := (tryAcquireState_step sod dl now s).2.1
      have href : (refreshState sod now s).requestsToday = s.requestsToday :=
        refreshState_requestsToday_same sod now s hdayS
      rw [href] at hstep
      by_cases hacq : (tryAcquireState sod dl now s).1 = AcquireResult.acquired
      · simp [hres, hacq, hstep]
      · simp [hres, hacq, hstep]
  · rw [if_neg hu]
    cases poolLookup p u with
    | none => simp
    | some s => simp [hu]

/-- `tryAcquire` never touches any cooldown stamp. -/
theorem tryAcquirePool_fail_all (sod : Int → Int) (dl now : Int) (p : Pool) (url : String) :
    ∀ u, (poolLookup (tryAcquirePool sod dl now p url).2 u).map (fun s => s.failedUntil) =
      (poolLookup p u).map (fun s => s.failedUntil) := by
  intro u
  rw [tryAcquirePool_lookup]
  by_cases hu : u = url
  · rw [if_pos hu, hu]
    cases poolLookup p url with
    | none => simp
    | some s => simp [tryAcquireState_failedUntil]
  · rw [if_neg hu]

/-- The loop epilogue satisfies the run dissection with no new events. -/
theorem runFinish_case {α : Type} (sod : Int → Int) (dl cooldownMs now : Int)
    (fn : String → Except UErr α) (p0 p : Pool) (attempted : List String)
    (lastErr : Option UErr) (tr : List UpEvent)
    (r : Except UErr α) (pool' : Pool) (trace' : List UpEvent)
    (hday : ∀ e ∈ p, e.2.dayStart = sod now)
    (hle : lastErr = tracedLastError tr)
    (hfF : ∀ u, (poolLookup p u).map (fun s => s.failedUntil) =
      (poolLookup p0 u).map (fun s => s.failedUntil))
    (hfR : ∀ u, (poolLookup p u).map (fun s => s.requestsToday) =
      (poolLookup p0 u).map (fun s => s.requestsToday))
    (hrun : (runFinish sod dl now p lastErr tr : Except UErr α × Pool × List UpEvent) =
      (r, pool', trace')) :
    RunSpec cooldownMs now fn p0 attempted tr r pool' trace' := by
  obtain ⟨hf1, hf2, hf3, hf4, hf5⟩ := @runFinish_facts α sod dl now p lastErr tr hday
  have hr : r = (runFinish sod dl now p lastErr tr : Except UErr α × Pool × List UpEvent).1 := by
    rw [hrun]
  have hp : pool' =
      (runFinish sod dl now p lastErr tr : Except UErr α × Pool × List UpEvent).2.1 := by
    rw [hrun]
  have ht : trace' =
      (runFinish sod dl now p lastErr tr : Except UErr α × Pool × List UpEvent).2.2 := by
    rw [hrun]
  unfold RunSpec
  refine ⟨[], ?_, ?_, ?_, ?_, ?_, ?_, ?_, ?_, ?_, ?_, ?_, ?_⟩
  · rw [ht, hf1, List.append_nil]
  · intro ev hev
    simp at hev
  · intro u _ _
    rw [hp, hf2 u, hfF u]
  · intro u e hmem
    simp at hmem
  · intro u hmem
    simp at hmem
  · intro u
    rw [hp, hf3 u, hfR u]
    cases poolLookup p0 u <;> simp [fnEventCount]
  · intro u e hmem
    simp at hmem
  · intro u e hmem
    simp at hmem
  · intro u hmem
    simp at hmem
  · intro v hv
    rw [hr] at hv
    exact absurd hv (hf4 v)
  · intro e he
    rw [hr] at he
    rcases hf5 e he with h | h | h
    · exact Or.inl h
    · refine Or.inr (Or.inr (Or.inl ?_))
      rw [List.append_nil]
      exact hle.symm.trans h
    · refine Or.inr (Or.inr (Or.inr ⟨?_, h.2⟩))
      rw [List.append_nil]
      exact hle.symm.trans h.1
  · exact List.Pairwise.nil

theorem runUpstreamF_main {α : Type} (sod : Int → Int) (dl cooldownMs now : Int)
    (fn : String → Except UErr α) (fuel : Nat) :
    ∀ (p : Pool) (attempted : List String) (rands : List Nat)
      (lastErr : Option UErr) (tr : List UpEvent)
      (r : Except UErr α) (pool' : Pool) (trace' : List UpEvent),
      (∀ e ∈ p, e.2.dayStart = sod now) →
      lastErr = tracedLastError tr →
      runUpstreamF sod dl cooldownMs now fn fuel p attempted rands lastErr tr =
        (r, pool', trace') →
      RunSpec cooldownMs now fn p attempted tr r pool' trace' := by
  induction fuel with
  | zero =>
    intro p attempted rands lastErr tr r pool' trace' hday hle hrun
    simp only [runUpstreamF] at hrun
    exact runFinish_case sod dl cooldownMs now fn p p attempted lastErr tr r pool' trace'
      hday hle (fun u => rfl) (fun u => rfl) hrun
  | succ fuel ih =>
    intro p attempted rands lastErr tr r pool' trace' hday hle hrun
    simp only [runUpstreamF] at hrun
    by_cases hlen : attempted.length < p.length
    case neg =>
      rw [if_neg hlen] at hrun
      exact runFinish_case sod dl cooldownMs now fn p p attempted lastErr tr r pool' trace'
        hday hle (fun u => rfl) (fun u => rfl) hrun
    case pos =>
      rw [if_pos hlen] at hrun
      rcases hnu : nextUrl sod dl now p attempted (rands.headD 0) with ⟨o, p1⟩
      rw [hnu] at hrun
      have hp1 : p1 = (nextScan sod dl now attempted p).1 := by
        have h := nextUrl_pool sod dl now p attempted (rands.headD 0)
        rw [hnu] at h
        exact h
      obtain ⟨hn1, hn2, hn3, hn4⟩ := nextScan_facts sod dl now attempted p hday
      rw [← hp1] at hn1 hn2 hn3 hn4
      cases o with
      | none =>
        dsimp only at hrun
        exact runFinish_case sod dl cooldownMs now fn p p1 attempted lastErr tr r pool' trace'
          hn2 hle hn3 hn4 hrun
      | some url =>
        dsimp only at hrun
        obtain ⟨hcont, hkey⟩ := nextUrl_mem sod dl now p attempted (rands.headD 0) url
          (by rw [hnu])
        have hnotmem : url ∉ attempted := by simpa using hcont
        have hkey1 : url ∈ p1.map Prod.fst := by rw [hn1]; exact hkey
        rcases hta : tryAcquirePool sod dl now p1 url with ⟨ar, p2⟩
        rw [hta] at hrun
        have hday2 : ∀ e ∈ p2, e.2.dayStart = sod now := by
          have h := tryAcquirePool_day sod dl now p1 url hn2
          rw [hta] at h
          exact h
        have hTAf : ∀ u, (poolLookup p2 u).map (fun s => s.failedUntil) =
            (poolLookup p1 u).map (fun s => s.failedUntil) := by
          intro u
          have h := tryAcquirePool_fail_all sod dl now p1 url u
          rw [hta] at h
          exact h
        have hTAr : ∀ u, (poolLookup p2 u).map (fun s => s.requestsToday) =
            (poolLookup p1 u).map (fun s =>
              if u = url ∧ ar = AcquireResult.acquired then s.requestsToday + 1
              else s.requestsToday) := by
          intro u
          have h := tryAcquirePool_req sod dl now p1 url hn2 u
          rw [hta] at h
          exact h
        have key : ar ≠ AcquireResult.acquired → ∀ (ar0 : AcquireResult)
            (lastErr' : Option UErr),
            lastErr' = tracedLastError (tr ++ [UpEvent.notAcquired url ar0]) →
            runUpstreamF sod dl cooldownMs now fn fuel p2 (attempted ++ [url]) rands.tail
              lastErr' (tr ++ [UpEvent.notAcquired url ar0]) = (r, pool', trace') →
            RunSpec cooldownMs now fn p attempted tr r pool' trace' := by
          intro har ar0 lastErr' hle' hrun'
          have hTAr' : ∀ u, (poolLookup p2 u).map (fun s => s.requestsToday) =
              (poolLookup p1 u).map (fun s => s.requestsToday) := by
            intro u
            rw [hTAr u]
            cases poolLookup p1 u with
            | none => rfl
            | some s1 => simp [har]
          have hspec := ih p2 (attempted ++ [url]) rands.tail lastErr'
            (tr ++ [UpEvent.notAcquired url ar0]) r pool' trace' hday2 hle' hrun'
          unfold RunSpec at hspec
          obtain ⟨Δ', h1, h2, h3, h4, h5, h6, h7, h8, h9, h10, h11, h12⟩ := hspec
          unfold RunSpec
          refine ⟨UpEvent.notAcquired url ar0 :: Δ', ?_, ?_, ?_, ?_, ?_, ?_, ?_, ?_, ?_,
            ?_, ?_, ?_⟩
          · rw [h1]; simp
          · intro ev hev
            rcases List.mem_cons.mp hev with h | h
            · rw [h]; exact hnotmem
            · exact fun hmem => h2 ev h (List.mem_append_left [url] hmem)
          · intro u hnf hns
            have hh := h3 u (fun e hmem => hnf e (List.mem_cons_of_mem _ hmem))
              (fun hmem => hns (List.mem_cons_of_mem _ hmem))
            rw [hh, hTAf u, hn3 u]
          · intro u e hmem
            rcases List.mem_cons.mp hmem with h | h
            · exact absurd h (by simp)
            · exact h4 u e h
          · intro u hmem
            rcases List.mem_cons.mp hmem with h | h
            · exact absurd h (by simp)
            · exact h5 u h
          · intro u
            have hz : fnEventCount (UpEvent.notAcquired url ar0 :: Δ') u =
                fnEventCount Δ' u := by
              have h0 : ¬(false = true) := by simp
              rw [fnEventCount_cons,
                show isFnEvent u (UpEvent.notAcquired url ar0) = false from rfl,
                if_neg h0, Nat.zero_add]
            simp only [hz]
            calc (poolLookup pool' u).map (fun s => s.requestsToday)
                = (poolLookup p2 u).map
                    (fun s => s.requestsToday + fnEventCount Δ' u) := h6 u
              _ = (poolLookup p1 u).map
                    (fun s => s.requestsToday + fnEventCount Δ' u) :=
                  map_field_trans _ _ _ _ (hTAr' u)
              _ = (poolLookup p u).map
                    (fun s => s.requestsToday + fnEventCount Δ' u) :=
                  map_field_trans _ _ _ _ (hn4 u)
          · intro u e hmem
            rcases List.mem_cons.mp hmem with h | h
            · exact absurd h (by simp)
            · obtain ⟨ha, hb, hc, hd⟩ := h7 u e h
              exact ⟨ha, hb, hc, getLast?_cons_of_some hd⟩
          · intro u e hmem
            rcases List.mem_cons.mp hmem with h | h
            · exact absurd h (by simp)
            · exact h8 u e h
          · intro u hmem
            rcases List.mem_cons.mp hmem with h | h
            · exact absurd h (by simp)
            · exact h9 u h
          · intro v hv
            obtain ⟨u, hgl, hfnu⟩ := h10 v hv
            exact ⟨u, getLast?_cons_of_some hgl, hfnu⟩
          · intro e he
            have hassoc : (tr ++ [UpEvent.notAcquired url ar0]) ++ Δ' =
                tr ++ (UpEvent.notAcquired url ar0 :: Δ') := by simp
            rcases h11 e he with h | h | h | h
            · exact Or.inl h
            · obtain ⟨u, hgl⟩ := h
              exact Or.inr (Or.inl ⟨u, getLast?_cons_of_some hgl⟩)
            · rw [hassoc] at h
              exact Or.inr (Or.inr (Or.inl h))
            · obtain ⟨hA, hB⟩ := h
              rw [hassoc] at hA
              exact Or.inr (Or.inr (Or.inr ⟨hA, hB⟩))
          · refine List.Pairwise.cons ?_ h12
            intro b hb hEq
            exact h2 b hb
              (by rw [← hEq]
                  exact List.mem_append_right attempted (List.mem_singleton.mpr rfl))
        cases ar with
        | acquired =>
          dsimp only at hrun
          obtain ⟨s, hls, hacq⟩ := tryAcquirePool_acquired sod dl now p1 url (by rw [hta])
          have hlp2 : poolLookup p2 url = some ((tryAcquireState sod dl now s).2) := by
            have h := tryAcquirePool_lookup sod dl now p1 url url
            rw [hta] at h
            simpa [hls] using h
          have hstep := (tryAcquireState_step sod dl now s).2.1
          rw [hacq, if_pos rfl] at hstep
          have hdayS : s.dayStart = sod now := hn2 (url, s) (mem_of_poolLookup p1 url s hls)
          have href : (refreshState sod now s).requestsToday = s.requestsToday :=
            refreshState_requestsToday_same sod now s hdayS
          rw [href] at hstep
          cases hfn : fn url with
          | ok v =>
            rw [hfn] at hrun
            dsimp only at hrun
            injection hrun with h1 h23
            injection h23 with h2 h3
            subst h1
            subst h2
            subst h3
            unfold RunSpec
            refine ⟨[UpEvent.succeeded url], rfl, ?_, ?_, ?_, ?_, ?_, ?_, ?_, ?_, ?_,
              ?_, ?_⟩
            · intro ev hev
              have he := List.mem_singleton.mp hev
              rw [he]
              exact hnotmem
            · intro u hnf hns
              have hune : u ≠ url := by
                intro h
                exact hns (by rw [h]; exact List.mem_singleton.mpr rfl)
              rw [poolMarkSuccess_lookup, if_neg hune, hTAf u, hn3 u]
            · intro u e hmem
              simp at hmem
            · intro u hmem
              have h := List.mem_singleton.mp hmem
              have hu : u = url := by injection h
              subst hu
              rw [poolMarkSuccess_lookup, if_pos rfl, hlp2]
              simp [markSuccess]
            · intro u
              by_cases hu : u = url
              · subst hu
                rw [poolMarkSuccess_lookup, if_pos rfl, hlp2]
                have h4 := hn4 u
                rw [hls] at h4
                cases hq : poolLookup p u with
                | none => rw [hq] at h4; simp at h4
                | some s0 =>
                  rw [hq] at h4
                  have hs0 : s.requestsToday = s0.requestsToday := by simpa using h4
                  simp [markSuccess, hstep, hs0, fnEventCount, isFnEvent]
              · have hu' : url ≠ u := fun h => hu h.symm
                calc (poolLookup (poolMarkSuccess p2 url) u).map (fun s => s.requestsToday)
                    = (poolLookup p2 u).map (fun s => s.requestsToday) := by
                      rw [poolMarkSuccess_lookup, if_neg hu]
                  _ = (poolLookup p1 u).map (fun s => s.requestsToday) := by
                      rw [hTAr u]
                      cases poolLookup p1 u with
                      | none => rfl
                      | some s1 => simp [hu]
                  _ = (poolLookup p u).map (fun s => s.requestsToday) := hn4 u
                  _ = (poolLookup p u).map
                        (fun s => s.requestsToday +
                          fnEventCount [UpEvent.succeeded url] u) := by
                      cases poolLookup p u with
                      | none => rfl
                      | some s1 => simp [fnEventCount, isFnEvent, hu']
            · intro u e hmem
              simp at hmem
            · intro u e hmem
              simp at hmem
            · intro u hmem
              have h := List.mem_singleton.mp hmem
              have hu : u = url := by injection h
              subst hu
              exact ⟨v, hfn, rfl⟩
            · intro v' hv'
              injection hv' with hv
              subst hv
              exact ⟨url, by simp, hfn⟩
            · intro e he
              simp at he
            · simp
          | error e0 =>
            rw [hfn] at hrun
            dsimp only at hrun
            by_cases hsm : shouldMarkFailure e0 = true
            · rw [if_pos hsm] at hrun
              have hday3 : ∀ x ∈ poolMarkFailure cooldownMs now p2 url,
                  x.2.dayStart = sod now :=
                poolMarkFailure_day sod cooldownMs now p2 url hday2
              have hle' : (some e0 : Option UErr) =
                  tracedLastError (tr ++ [UpEvent.failedOver url e0]) := by
                rw [tracedLastError_append]
                rfl
              have hspec := ih (poolMarkFailure cooldownMs now p2 url) (attempted ++ [url])
                rands.tail (some e0) (tr ++ [UpEvent.failedOver url e0]) r pool' trace'
                hday3 hle' hrun
              unfold RunSpec at hspec
              obtain ⟨Δ', h1, h2, h3, h4, h5, h6, h7, h8, h9, h10, h11, h12⟩ := hspec
              have hΔu : ∀ ev ∈ Δ', eventUrl ev ≠ url := by
                intro ev hev h
                exact h2 ev hev
                  (by rw [h]; exact List.mem_append_right attempted (List.mem_singleton.mpr rfl))
              have hlp3 : poolLookup (poolMarkFailure cooldownMs now p2 url) url =
                  some (markFailure cooldownMs now ((tryAcquireState sod dl now s).2)) := by
                rw [poolMarkFailure_lookup, if_pos rfl, hlp2]
                rfl
              have hfinal_self : (poolLookup pool' url).map (fun s => s.failedUntil) =
                  some (failValue cooldownMs now) := by
                have hh := h3 url (fun e hmem => hΔu _ hmem rfl) (fun hmem => hΔu _ hmem rfl)
                rw [hh, hlp3]
                rfl
              unfold RunSpec
              refine ⟨UpEvent.failedOver url e0 :: Δ', ?_, ?_, ?_, ?_, ?_, ?_, ?_, ?_, ?_,
                ?_, ?_, ?_⟩
              · rw [h1]; simp
              · intro ev hev
                rcases List.mem_cons.mp hev with h | h
                · rw [h]; exact hnotmem
                · exact fun hmem => h2 ev h (List.mem_append_left [url] hmem)
              · intro u hnf hns
                have hune : u ≠ url := by
                  intro h
                  exact hnf e0 (by rw [h]; exact List.mem_cons_self _ _)
                have hh := h3 u (fun e hmem => hnf e (List.mem_cons_of_mem _ hmem))
                  (fun hmem => hns (List.mem_cons_of_mem _ hmem))
                rw [hh, poolMarkFailure_lookup, if_neg hune, hTAf u, hn3 u]
              · intro u e hmem
                rcases List.mem_cons.mp hmem with h | h
                · injection h with hu he
                  subst hu
                  subst he
                  exact hfinal_self
                · exact h4 u e h
              · intro u hmem
                rcases List.mem_cons.mp hmem with h | h
                · exact absurd h (by simp)
                · exact h5 u h
              · intro u
                by_cases hu : u = url
                · subst hu
                  have hz : fnEventCount Δ' u = 0 := fnEventCount_zero Δ' u hΔu
                  have h6u := h6 u
                  simp only [hz, Nat.add_zero] at h6u
                  rw [h6u, hlp3]
                  have h4' := hn4 u
                  rw [hls] at h4'
                  cases hq : poolLookup p u with
                  | none => rw [hq] at h4'; simp at h4'
                  | some s0 =>
                    rw [hq] at h4'
                    have hs0 : s.requestsToday = s0.requestsToday := by simpa using h4'
                    have hc : fnEventCount (UpEvent.failedOver u e0 :: Δ') u = 1 := by
                      rw [fnEventCount_cons, hz]
                      simp [isFnEvent]
                    simp only [hc]
                    simp [markFailure, hstep, hs0]
                · have hu' : url ≠ u := fun h => hu h.symm
                  have hz : fnEventCount (UpEvent.failedOver url e0 :: Δ') u =
                      fnEventCount Δ' u := by
                    have h0 : ¬(false = true) := by simp
                    rw [fnEventCount_cons,
                      isFnEvent_false_of_ne u (UpEvent.failedOver url e0) hu', if_neg h0,
                      Nat.zero_add]
                  simp only [hz]
                  calc (poolLookup pool' u).map (fun s => s.requestsToday)
                      = (poolLookup (poolMarkFailure cooldownMs now p2 url) u).map
                          (fun s => s.requestsToday + fnEventCount Δ' u) := h6 u
                    _ = (poolLookup p2 u).map
                          (fun s => s.requestsToday + fnEventCount Δ' u) := by
                        apply map_field_trans
                        rw [poolMarkFailure_lookup, if_neg hu]
                    _ = (poolLookup p1 u).map
                          (fun s => s.requestsToday + fnEventCount Δ' u) := by
                        apply map_field_trans
                        rw [hTAr u]
                        cases poolLookup p1 u with
                        | none => rfl
                        | some s1 => simp [hu]
                    _ = (poolLookup p u).map
                          (fun s => s.requestsToday + fnEventCount Δ' u) := by
                        apply map_field_trans
                        exact hn4 u
              · intro u e hmem
                rcases List.mem_cons.mp hmem with h | h
                · exact absurd h (by simp)
                · obtain ⟨ha, hb, hc, hd⟩ := h7 u e h
                  exact ⟨ha, hb, hc, getLast?_cons_of_some hd⟩
              · intro u e hmem
                rcases List.mem_cons.mp hmem with h | h
                · injection h with hu he
                  subst hu
                  subst he
                  exact ⟨hfn, hsm⟩
                · exact h8 u e h
              · intro u hmem
                rcases List.mem_cons.mp hmem with h | h
                · exact absurd h (by simp)
                · exact h9 u h
              · intro v hv
                obtain ⟨u, hgl, hfnu⟩ := h10 v hv
                exact ⟨u, getLast?_cons_of_some hgl, hfnu⟩
              · intro e he
                have hassoc : (tr ++ [UpEvent.failedOver url e0]) ++ Δ' =
                    tr ++ (UpEvent.failedOver url e0 :: Δ') := by simp
                rcases h11 e he with h | h | h | h
                · exact Or.inl h
                · obtain ⟨u, hgl⟩ := h
                  exact Or.inr (Or.inl ⟨u, getLast?_cons_of_some hgl⟩)
                · rw [hassoc] at h
                  exact Or.inr (Or.inr (Or.inl h))
                · obtain ⟨hA, hB⟩ := h
                  rw [hassoc] at hA
                  exact Or.inr (Or.inr (Or.inr ⟨hA, hB⟩))
              · refine List.Pairwise.cons ?_ h12
                intro b hb hEq
                exact h2 b hb
                  (by rw [← hEq]
                      exact List.mem_append_right attempted (List.mem_singleton.mpr rfl))
            · rw [if_neg hsm] at hrun
              injection hrun with h1 h23
              injection h23 with h2 h3
              subst h1
              subst h2
              subst h3
              have hsmf : shouldMarkFailure e0 = false := by
                cases hb : shouldMarkFailure e0
                · rfl
                · exact absurd hb hsm
              unfold RunSpec
              refine ⟨[UpEvent.clientError url e0], rfl, ?_, ?_, ?_, ?_, ?_, ?_, ?_, ?_,
                ?_, ?_, ?_⟩
              · intro ev hev
                have he := List.mem_singleton.mp hev
                rw [he]
                exact hnotmem
              · intro u hnf hns
                rw [hTAf u, hn3 u]
              · intro u e hmem
                simp at hmem
              · intro u hmem
                simp at hmem
              · intro u
                by_cases hu : u = url
                · subst hu
                  rw [hlp2]
                  have h4' := hn4 u
                  rw [hls] at h4'
                  cases hq : poolLookup p u with
                  | none => rw [hq] at h4'; simp at h4'
                  | some s0 =>
                    rw [hq] at h4'
                    have hs0 : s.requestsToday = s0.requestsToday := by simpa using h4'
                    simp [hstep, hs0, fnEventCount, isFnEvent]
                · have hu' : url ≠ u := fun h => hu h.symm
                  calc (poolLookup p2 u).map (fun s => s.requestsToday)
                      = (poolLookup p1 u).map (fun s => s.requestsToday) := by
                        rw [hTAr u]
                        cases poolLookup p1 u with
                        | none => rfl
                        | some s1 => simp [hu]
                    _ = (poolLookup p u).map (fun s => s.requestsToday) := hn4 u
                    _ = (poolLookup p u).map
                          (fun s => s.requestsToday +
                            fnEventCount [UpEvent.clientError url e0] u) := by
                        cases poolLookup p u with
                        | none => rfl
                        | some s1 => simp [fnEventCount, isFnEvent, hu']
              · intro u e hmem
                have h := List.mem_singleton.mp hmem
                injection h with hu he
                subst hu
                subst he
                exact ⟨rfl, hfn, hsmf, by simp⟩
              · intro u e hmem
                simp at hmem
              · intro u hmem
                simp at hmem
              · intro v hv
                simp at hv
              · intro e he
                injection he with h
                subst h
                exact Or.inr (Or.inl ⟨url, by simp⟩)
              · simp
        | limit =>
          dsimp only at hrun
          rw [if_pos rfl] at hrun
          refine key (by simp) AcquireResult.limit (some (limitMsg url)) ?_ hrun
          rw [tracedLastError_append,
            show eventError (UpEvent.notAcquired url AcquireResult.limit) =
              some (limitMsg url) from rfl]
        | cooldown =>
          dsimp only at hrun
          rw [if_neg (by simp)] at hrun
          refine key (by simp) AcquireResult.cooldown lastErr ?_ hrun
          have hh : tracedLastError (tr ++ [UpEvent.notAcquired url AcquireResult.cooldown]) =
              tracedLastError tr := by
            rw [tracedLastError_append,
              show eventError (UpEvent.notAcquired url AcquireResult.cooldown) = none from rfl]
          rw [hh]
          exact hle
        | blocked =>
          dsimp only at hrun
          rw [if_neg (by simp)] at hrun
          refine key (by simp) AcquireResult.blocked lastErr ?_ hrun
          have hh : tracedLastError (tr ++ [UpEvent.notAcquired url AcquireResult.blocked]) =
              tracedLastError tr := by
            rw [tracedLastError_append,
              show eventError (UpEvent.notAcquired url AcquireResult.blocked) = none from rfl]
          rw [hh]
          exact hle

/-- C6: in a `withUpstream` run over a configured (nonempty) pool whose
entries are on the current day and with a positive failure cooldown: a
client error from `fn` (HTTP status below 500 and not 429) is the returned
error, ends the run, and leaves that URL's `failedUntil` unchanged; any
other error from `fn` is recorded as a failover, setting the URL's
`failedUntil` to `now + cooldown`; a success returns `fn`'s value (resetting
the winning URL's `failedUntil`); and an error result is the synthesized
all-limits error, a propagated client error, or the last recorded error,
with the no-URLs fallback when none was recorded. -/
theorem C6_failover_error_classification {α : Type} (sod : Int → Int)
    (dl cooldownMs now : Int) (fn : String → Except UErr α) (p : Pool) (rands : List Nat)
    (r : Except UErr α) (pool' : Pool) (tr : List UpEvent)
    (hne : p ≠ [])
    (hday : ∀ e ∈ p, e.2.dayStart = sod now)
    (hcd : 0 < cooldownMs)
    (hrun : runUpstream sod dl cooldownMs now fn p rands = (r, pool', tr)) :
    (∀ url e, UpEvent.clientError url e ∈ tr →
      r = .error e ∧ fn url = .error e ∧ shouldMarkFailure e = false ∧
      tr.getLast? = some (.clientError url e) ∧
      (poolLookup pool' url).map (fun s => s.failedUntil) =
        (poolLookup p url).map (fun s => s.failedUntil)) ∧
    (∀ url e, UpEvent.failedOver url e ∈ tr →
      fn url = .error e ∧ shouldMarkFailure e = true ∧
      (poolLookup pool' url).map (fun s => s.failedUntil) = some (now + cooldownMs)) ∧
    (∀ v, r = .ok v → ∃ url, tr.getLast? = some (.succeeded url) ∧ fn url = .ok v ∧
      (poolLookup pool' url).map (fun s => s.failedUntil) = some 0) ∧
    (∀ e, r = .error e →
      e = allLimitsErr ∨ (∃ url, tr.getLast? = some (.clientError url e)) ∨
      tracedLastError tr = some e ∨ (tracedLastError tr = none ∧ e = noUrlsErr)) := by
  have hlen : ¬(p.length = 0) := by
    intro h
    exact hne (List.length_eq_zero.mp h)
  unfold runUpstream at hrun
  rw [if_neg hlen] at hrun
  have hspec := runUpstreamF_main sod dl cooldownMs now fn (p.length + 1) p [] rands none []
    r pool' tr hday rfl hrun
  unfold RunSpec at hspec
  obtain ⟨Δ, h1, h2, h3, h4, h5, h6, h7, h8, h9, h10, h11, h12⟩ := hspec
  rw [List.nil_append] at h1
  subst h1
  have hsymm : Symmetric (fun a b : UpEvent => eventUrl a ≠ eventUrl b) :=
    fun a b h => fun hh => h hh.symm
  have hfv : failValue cooldownMs now = now + cooldownMs := by
    unfold failValue
    have hmax : max 0 cooldownMs = cooldownMs := max_eq_right (le_of_lt hcd)
    rw [hmax, if_neg (ne_of_gt hcd)]
  refine ⟨?_, ?_, ?_, ?_⟩
  · intro url e hmem
    obtain ⟨ha, hb, hc, hd⟩ := h7 url e hmem
    refine ⟨ha, hb, hc, hd, ?_⟩
    refine h3 url ?_ ?_
    · intro e' hmem'
      have hne' : UpEvent.failedOver url e' ≠ UpEvent.clientError url e := by simp
      have hcontra : eventUrl (UpEvent.failedOver url e') ≠
          eventUrl (UpEvent.clientError url e) :=
        h12.forall hsymm hmem' hmem hne'
      exact hcontra rfl
    · intro hmem'
      have hne' : UpEvent.succeeded url ≠ UpEvent.clientError url e := by simp
      have hcontra : eventUrl (UpEvent.succeeded url) ≠
          eventUrl (UpEvent.clientError url e) :=
        h12.forall hsymm hmem' hmem hne'
      exact hcontra rfl
  · intro url e hmem
    obtain ⟨ha, hb⟩ := h8 url e hmem
    refine ⟨ha, hb, ?_⟩
    rw [h4 url e hmem, hfv]
  · intro v hv
    obtain ⟨url, hgl, hfnu⟩ := h10 v hv
    exact ⟨url, hgl, hfnu, h5 url (List.mem_of_getLast?_eq_some hgl)⟩
  · intro e he
    have h := h11 e he
    rw [List.nil_append] at h
    exact h

/-- C10: a failed attempt still consumes daily quota. Over a full
`withUpstream` run whose pool entries are on the current day, each URL's
`requestsToday` advances by exactly the number of `fn` calls recorded for
it — successes, failovers and propagated client errors alike, with blocked
or cooldown candidates contributing nothing — and the `tryAcquire` state
transition increments the (refreshed) counter exactly when it answers
`acquired`, before any request is made. -/
theorem C10_quota_counts_acquisitions {α : Type} (sod : Int → Int)
    (dl cooldownMs now : Int) (fn : String → Except UErr α) (p : Pool) (rands : List Nat)
    (r : Except UErr α) (pool' : Pool) (tr : List UpEvent)
    (hday : ∀ e ∈ p, e.2.dayStart = sod now)
    (hrun : runUpstream sod dl cooldownMs now fn p rands = (r, pool', tr)) :
    (∀ url s0, poolLookup p url = some s0 →
      (poolLookup pool' url).map (fun s => s.requestsToday) =
        some (s0.requestsToday + fnEventCount tr url)) ∧
    (∀ s, (tryAcquireState sod dl now s).2.requestsToday =
      (if (tryAcquireState sod dl now s).1 = .acquired
        then (refreshState sod now s).requestsToday + 1
        else (refreshState sod now s).requestsToday)) := by
  refine ⟨?_, fun s => (tryAcquireState_step sod dl now s).2.1⟩
  intro url s0 hl
  by_cases hlen : p.length = 0
  · have hnil : p = [] := List.length_eq_zero.mp hlen
    rw [hnil] at hl
    simp [poolLookup] at hl
  · unfold runUpstream at hrun
    rw [if_neg hlen] at hrun
    have hspec := runUpstreamF_main sod dl cooldownMs now fn (p.length + 1) p [] rands none []
      r pool' tr hday rfl hrun
    unfold RunSpec at hspec
    obtain ⟨Δ, h1, h2, h3, h4, h5, h6, h7, h8, h9, h10, h11, h12⟩ := hspec
    rw [List.nil_append] at h1
    subst h1
    have h := h6 url
    rw [hl] at h
    simpa using h

/-- Witness for C6: on the concrete two-upstream run, upstream "a" fails
over with HTTP 503 (cooldown stamp set to 5100), "b" succeeds and its value
is returned. -/
theorem C6_failover_error_classification_witness :
    (cPool ≠ []) ∧ (∀ e ∈ cPool, e.2.dayStart = cSod 100) ∧ ((0:Int) < 5000) ∧
    cRun.1 = Except.ok 7 ∧
    UpEvent.failedOver "a" (UErr.request (some 503)) ∈ cRun.2.2 ∧
    ((∀ url e, UpEvent.clientError url e ∈ cRun.2.2 →
      cRun.1 = .error e ∧ cFn url = .error e ∧ shouldMarkFailure e = false ∧
      cRun.2.2.getLast? = some (.clientError url e) ∧
      (poolLookup cRun.2.1 url).map (fun s => s.failedUntil) =
        (poolLookup cPool url).map (fun s => s.failedUntil)) ∧
    (∀ url e, UpEvent.failedOver url e ∈ cRun.2.2 →
      cFn url = .error e ∧ shouldMarkFailure e = true ∧
      (poolLookup cRun.2.1 url).map (fun s => s.failedUntil) = some (100 + 5000)) ∧
    (∀ v, cRun.1 = .ok v → ∃ url, cRun.2.2.getLast? = some (.succeeded url) ∧
      cFn url = .ok v ∧
      (poolLookup cRun.2.1 url).map (fun s => s.failedUntil) = some 0) ∧
    (∀ e, cRun.1 = .error e →
      e = allLimitsErr ∨ (∃ url, cRun.2.2.getLast? = some (.clientError url e)) ∨
      tracedLastError cRun.2.2 = some e ∨
      (tracedLastError cRun.2.2 = none ∧ e = noUrlsErr))) :=
  ⟨by decide, by decide, by decide, rfl, by decide,
    C6_failover_error_classification cSod 10 5000 100 cFn cPool [0, 0]
      cRun.1 cRun.2.1 cRun.2.2 (by decide) (by decide) (by decide) rfl⟩

/-- Witness for C10: on the concrete run both URLs were acquired once — the
failed "a" attempt consumed a quota unit just like the successful "b" one. -/
theorem C10_quota_counts_acquisitions_witness :
    (∀ e ∈ cPool, e.2.dayStart = cSod 100) ∧
    fnEventCount cRun.2.2 "a" = 1 ∧ fnEventCount cRun.2.2 "b" = 1 ∧
    (poolLookup cRun.2.1 "a").map (fun s => s.requestsToday) = some 1 ∧
    ((∀ url s0, poolLookup cPool url = some s0 →
      (poolLookup cRun.2.1 url).map (fun s => s.requestsToday) =
        some (s0.requestsToday + fnEventCount cRun.2.2 url)) ∧
    (∀ s, (tryAcquireState cSod 10 100 s).2.requestsToday =
      (if (tryAcquireState cSod 10 100 s).1 = .acquired
        then (refreshState cSod 100 s).requestsToday + 1
        else (refreshState cSod 100 s).requestsToday))) :=
  ⟨by decide, by decide, by decide, by decide,
    C10_quota_counts_acquisitions cSod 10 5000 100 cFn cPool [0, 0]
      cRun.1 cRun.2.1 cRun.2.2 (by decide) rfl⟩
